import Mathlib

/-!
Verification of the GiGi windowing-toolkit core (FreeOrion fork):
a shallow embedding of the flag-registry system (src/GG/GG/Flags.h)
and of the window-tree operations (src/GG/src/Wnd.cpp), together with
theorems settling the specification's claims about them.
-/

namespace GGSpec

/-! ## Flags.h: detail::OneBits

`OneBits` counts the set bits of an integral value by looping over its
`NUM_BITS` binary digits, testing `num & 1` and shifting right.  The flag
types instantiated here use `unsigned short int` (16 digits). -/

/-- Loop body of `detail::OneBits`: `k` remaining iterations, `n` the shifted
value, `acc` the running count `retval`. -/
def OneBitsGo : Nat → Nat → Nat → Nat
  | 0, _, acc => acc
  | k + 1, n, acc => OneBitsGo k (n >>> 1) (if n &&& 1 = 1 then acc + 1 else acc)

/-- Number of one bits in a 16-bit flag value (`detail::OneBits` with
`NUM_BITS = std::numeric_limits of unsigned short = 16`). -/
def OneBits (num : Nat) : Nat := OneBitsGo 16 num 0

/-! ## Flags.h: FlagSpec

`FlagSpec` stores parallel arrays `m_flags` and `m_strings` whose first
`m_count` entries are meaningful.  We model the meaningful prefix as two
lists of equal length (established for registries built by `insert`). -/

/-- Registry of known flags of one flag type: the first `m_count` entries of
the parallel arrays `m_flags` and `m_strings` of `FlagSpec`. -/
structure FlagSpecS where
  flags : List Nat
  strings : List String
deriving DecidableEq

/-- Number of registered flags (`m_count`). -/
def FlagSpecS.count (s : FlagSpecS) : Nat := s.flags.length

/-- Failures that `FlagSpec::insert` reports: `std::runtime_error` when the
registry already holds `digits` flags, `std::invalid_argument` when the flag
value is already present. -/
inductive InsertError
  | capacityExceeded
  | duplicateFlag
deriving DecidableEq

/-- `FlagSpec::insert(flag, name)`: reject when `m_count >= digits` (16 for
unsigned short), then when the flag value is already stored among the first
`m_count` flags; otherwise append the pair and increment `m_count`. -/
def FlagSpecS.insert (s : FlagSpecS) (flag : Nat) (name : String) :
    Except InsertError FlagSpecS :=
  if 16 ≤ s.count then .error .capacityExceeded
  else if flag ∈ s.flags then .error .duplicateFlag
  else .ok ⟨s.flags ++ [flag], s.strings ++ [name]⟩

/-- Failures of the two lookup directions: `FlagSpec::UnknownFlag` and
`FlagSpec::UnknownString`. -/
inductive LookupError
  | unknownFlag
  | unknownString
deriving DecidableEq

/-- `FlagSpec::contains(flag)`: linear scan of the registered flags. -/
def FlagSpecS.containsFlag (s : FlagSpecS) (flag : Nat) : Bool :=
  s.flags.contains flag

/-- `FlagSpec::ToString(flag)`: return the string stored at the first index
whose flag equals `flag`; throw `UnknownFlag` when no index matches. -/
def FlagSpecS.ToString (s : FlagSpecS) (flag : Nat) : Except LookupError String :=
  match (s.flags.zip s.strings).find? (fun p => p.1 == flag) with
  | some p => .ok p.2
  | none => .error .unknownFlag

/-- `FlagSpec::FromString(str)`: return the flag stored at the first index
whose string equals `str`; throw `UnknownString` when no index matches. -/
def FlagSpecS.FromString (s : FlagSpecS) (str : String) : Except LookupError Nat :=
  match (s.flags.zip s.strings).find? (fun p => p.2 == str) with
  | some p => .ok p.1
  | none => .error .unknownString

/-- Registry states reachable from the default-constructed (empty) `FlagSpec`
by successful `insert` calls. -/
inductive Reachable : FlagSpecS → Prop
  | empty : Reachable ⟨[], []⟩
  | step {s s' : FlagSpecS} {f : Nat} {n : String} :
      Reachable s → s.insert f n = .ok s' → Reachable s'

/-! ## Flags.h: Flags and operator~

A `Flags` value is the bitwise OR of the underlying values of its flags
(`m_flags`, an `unsigned short int`); `|`, `&` and `^` are the machine
bitwise operators.  `operator~` is registry dependent: it ORs together every
flag known to `FlagSpec::instance()` whose conjunction with the operand is
zero. -/

/-- `operator~(Flags)`: fold over the registered flags, accumulating each
flag `f` with `!(f & fl)` into the result (`retval |= flag`). -/
def flagsComplement (spec : FlagSpecS) (fl : Nat) : Nat :=
  spec.flags.foldl (fun acc f => if f &&& fl = 0 then acc ||| f else acc) 0

/-- Bitwise OR of every registered flag: the full registered universe, used
to state what the spec calls "registry universe". -/
def flagUniverse (spec : FlagSpecS) : Nat :=
  spec.flags.foldl (fun acc f => acc ||| f) 0

/-- Stated from the specification's words, for comparison with
`flagsComplement`: the "registry universe minus operand" is the OR of every
registered flag that is not a member of the operand, where a (single-bit)
flag `f` is a member of the set `s` when `f` is nonzero and all its bits are
in `s`. -/
def universeMinusSpec (spec : FlagSpecS) (s : Nat) : Nat :=
  spec.flags.foldl (fun acc f => if f ≠ 0 ∧ f &&& s = f then acc else acc ||| f) 0

/-! ## Geometry: GG::Pt

Points carry two machine `int` coordinates; comparisons are componentwise
conjunctions (the convention visible in `Wnd::InWindow`:
`pt >= UpperLeft() && pt < LowerRight()`). -/

/-- A GG point: x and y coordinates (machine ints, modelled as `Int`). -/
structure Pt where
  x : Int
  y : Int
deriving DecidableEq

/-- Componentwise point addition. -/
def Pt.add (a b : Pt) : Pt := ⟨a.x + b.x, a.y + b.y⟩

/-- Componentwise point subtraction. -/
def Pt.sub (a b : Pt) : Pt := ⟨a.x - b.x, a.y - b.y⟩

/-- Componentwise `operator<=` on points. -/
def Pt.le (a b : Pt) : Prop := a.x ≤ b.x ∧ a.y ≤ b.y

/-- Componentwise `operator<` on points. -/
def Pt.lt (a b : Pt) : Prop := a.x < b.x ∧ a.y < b.y

instance : DecidablePred (fun p : Pt × Pt => Pt.le p.1 p.2) :=
  fun _ => by unfold Pt.le; infer_instance

instance (a b : Pt) : Decidable (Pt.le a b) := by unfold Pt.le; infer_instance

instance (a b : Pt) : Decidable (Pt.lt a b) := by unfold Pt.lt; infer_instance

/-- Modelled from the spec: `GG::Rect::Contains(pt)` (declared in a header
outside the provided sources) is half-open containment, `ul <= pt && pt < lr`
componentwise, the same convention as `Wnd::InWindow` in the sources and the
spec's "corner containment" wording. -/
def rectContains (ul lr pt : Pt) : Prop := Pt.le ul pt ∧ Pt.lt pt lr

instance (ul lr pt : Pt) : Decidable (rectContains ul lr pt) := by
  unfold rectContains; infer_instance

/-! ## WndFlag values

Modelled from the spec: the window capability flags are distinct single-bit
values of the 16-bit `WndFlag` type (their declarations live in GG/Wnd.h,
outside the provided sources); `Wnd.cpp` registers exactly these eight with
the `FlagSpec` at startup. -/

def NO_WND_FLAGS : Nat := 0
def INTERACTIVE : Nat := 1
def REPEAT_BUTTON_DOWN : Nat := 2
def DRAGABLE : Nat := 4
def RESIZABLE : Nat := 8
def ONTOP : Nat := 16
def MODAL : Nat := 32
def REPEAT_KEY_PRESS : Nat := 64

/-- The `WndFlag` registry built by `RegisterWndFlags()` in Wnd.cpp. -/
def wndFlagSpec : FlagSpecS :=
  ⟨[NO_WND_FLAGS, INTERACTIVE, REPEAT_BUTTON_DOWN, DRAGABLE, RESIZABLE,
    ONTOP, MODAL, REPEAT_KEY_PRESS],
   ["NO_WND_FLAGS", "INTERACTIVE", "REPEAT_BUTTON_DOWN", "DRAGABLE",
    "RESIZABLE", "ONTOP", "MODAL", "REPEAT_KEY_PRESS"]⟩

/-! ## Wnd: per-node state

The fields of one `GG::Wnd` that the claims observe.  A `Wnd` is the base
class, so `ClientUpperLeft() = UpperLeft()` and `ClientLowerRight() =
LowerRight()` (zero chrome).  The installed layout child is summarised by its
current `MinSize()` (`layoutMin = none` when no layout is installed): the
geometry of the layout child itself is owned by another node and is not
observed by any claim.  `done` is `m_done`, the modal-loop completion flag. -/

structure WndState where
  flags : Nat
  upperleft : Pt
  lowerright : Pt
  min_size : Pt
  max_size : Pt
  layoutMin : Option Pt
  done : Bool
deriving DecidableEq

namespace WndState

/-- `Wnd::Size()`: lowerright minus upperleft. -/
def Size (w : WndState) : Pt := Pt.sub w.lowerright w.upperleft

/-- `Wnd::ClientSize()`: in the base class the client area is the whole
window, so this equals `Size`. -/
def ClientSize (w : WndState) : Pt := Size w

/-- `Wnd::Interactive()`: `m_flags & INTERACTIVE`. -/
def Interactive (w : WndState) : Bool := w.flags &&& INTERACTIVE ≠ 0

/-- `Wnd::Dragable()`: `m_flags & DRAGABLE`. -/
def Dragable (w : WndState) : Bool := w.flags &&& DRAGABLE ≠ 0

/-- `Wnd::OnTop()`: no parent and `m_flags & ONTOP`.  The parent link is a
weak reference resolved at call time; `hasParent` is whether it resolves. -/
def OnTop (w : WndState) (hasParent : Bool) : Bool :=
  !hasParent && w.flags &&& ONTOP ≠ 0

/-- `Wnd::Modal()`: no parent and `m_flags & MODAL`. -/
def Modal (w : WndState) (hasParent : Bool) : Bool :=
  !hasParent && w.flags &&& MODAL ≠ 0

/-- `Wnd::ClampRectWithMinAndMaxSize(ul, lr)`: raise the node's own min size
to the installed layout's min size plus the chrome delta `Size() -
ClientSize()` (zero in the base class) when a layout is present, then clamp
each axis: a requested extent below the min moves the edge that changed (or
the lower-right edge when the upper-left did not move) so the extent equals
the min; an extent above the max symmetrically caps it at the max.  The raised
minimum is split out as `effectiveMinSize`. -/
def effectiveMinSize (w : WndState) : Pt :=
  match w.layoutMin with
  | some lm =>
      let layout_min_sz := Pt.add lm (Pt.sub (Size w) (ClientSize w))
      ⟨max w.min_size.x layout_min_sz.x, max w.min_size.y layout_min_sz.y⟩
  | none => w.min_size

/-- Clamping proper: see `effectiveMinSize` for the raised minimum. -/
def ClampRectWithMinAndMaxSize (w : WndState) (ul lr : Pt) : Pt × Pt :=
  let min_sz := effectiveMinSize w
  let max_sz := w.max_size
  let (ulx, lrx) :=
    if lr.x - ul.x < min_sz.x then
      if ul.x ≠ w.upperleft.x then (lr.x - min_sz.x, lr.x)
      else (ul.x, ul.x + min_sz.x)
    else if max_sz.x < lr.x - ul.x then
      if lr.x ≠ w.lowerright.x then (ul.x, ul.x + max_sz.x)
      else (lr.x - max_sz.x, lr.x)
    else (ul.x, lr.x)
  let (uly, lry) :=
    if lr.y - ul.y < min_sz.y then
      if ul.y ≠ w.upperleft.y then (lr.y - min_sz.y, lr.y)
      else (ul.y, ul.y + min_sz.y)
    else if max_sz.y < lr.y - ul.y then
      if lr.y ≠ w.lowerright.y then (ul.y, ul.y + max_sz.y)
      else (lr.y - max_sz.y, lr.y)
    else (ul.y, lr.y)
  (⟨ulx, uly⟩, ⟨lrx, lry⟩)

/-- `Wnd::SizeMove(ul, lr)`: when the requested size differs from the
current size, clamp the rectangle against min/max, then store it.  The
subsequent propagation (resizing the owned layout child, notifying the
containing layout) mutates other nodes, not the fields of this one. -/
def SizeMove (w : WndState) (ul lr : Pt) : WndState :=
  let original_sz := Size w
  let resized := original_sz ≠ Pt.sub lr ul
  let (ul', lr') := if resized then ClampRectWithMinAndMaxSize w ul lr else (ul, lr)
  { w with upperleft := ul', lowerright := lr' }

/-- `Wnd::Resize(sz)`: `SizeMove(m_upperleft, m_upperleft + sz)`. -/
def Resize (w : WndState) (sz : Pt) : WndState :=
  SizeMove w w.upperleft (Pt.add w.upperleft sz)

/-- `Wnd::OffsetMove(pt)`: `SizeMove(m_upperleft + pt, m_lowerright + pt)`. -/
def OffsetMove (w : WndState) (pt : Pt) : WndState :=
  SizeMove w (Pt.add w.upperleft pt) (Pt.add w.lowerright pt)

/-- `Wnd::MoveTo(pt)`: `SizeMove(pt, pt + Size())`. -/
def MoveTo (w : WndState) (pt : Pt) : WndState :=
  SizeMove w pt (Pt.add pt (Size w))

/-- `Wnd::ValidateFlags()`: when both MODAL and ONTOP are set, clear ONTOP
via `m_flags &= ~ONTOP`, where `~` is the registry complement over the
`WndFlag` spec. -/
def ValidateFlags (flags : Nat) : Nat :=
  if flags &&& MODAL ≠ 0 ∧ flags &&& ONTOP ≠ 0 then
    flags &&& flagsComplement wndFlagSpec ONTOP
  else flags

/-- The `Wnd` constructor: store the geometry and flags, then run
`ValidateFlags()`.  Remaining fields take their defaults (no min size, a
huge max size is irrelevant to the claims so it is a parameter here; no
layout, modal loop not finished). -/
def mkWnd (x y w h : Int) (flags : Nat) : WndState :=
  { flags := ValidateFlags flags
    upperleft := ⟨x, y⟩
    lowerright := ⟨x + w, y + h⟩
    min_size := ⟨0, 0⟩
    max_size := ⟨1 <<< 30, 1 <<< 30⟩
    layoutMin := none
    done := false }

end WndState

/-! ## Modal run loop -/

/-- Calls `Wnd::Run` makes on the external application object and on its own
overridable hooks, in order. -/
inductive GuiCall
  | registerModal
  | modalInit
  | runModal
  | remove
deriving DecidableEq

/-- `Wnd::Run()`: only for a parentless node with the MODAL flag does it
register with the modal stack, call `ModalInit()`, clear `m_done`, run the
modal pump, unregister, and return true; otherwise it returns false having
done nothing. -/
def WndState.Run (w : WndState) (hasParent : Bool) :
    Bool × WndState × List GuiCall :=
  if !hasParent ∧ w.flags &&& MODAL ≠ 0 then
    (true, { w with done := false },
     [.registerModal, .modalInit, .runModal, .remove])
  else
    (false, w, [])

/-! ## Event dispatch

`WndEvent` is a closed set of event kinds with payloads; the payloads a base
`Wnd`'s handlers inspect are kept (the drag move offset), the rest are
carried opaquely.  `ModKey` flag sets are a `Nat` bit set. -/

/-- One input event, tagged by `WndEvent::EventType` with its payload. -/
inductive WndEvent
  | LButtonDown (pt : Pt) (mod_keys : Nat)
  | LDrag (pt move : Pt) (mod_keys : Nat)
  | LButtonUp (pt : Pt) (mod_keys : Nat)
  | LClick (pt : Pt) (mod_keys : Nat)
  | LDoubleClick (pt : Pt) (mod_keys : Nat)
  | MButtonDown (pt : Pt) (mod_keys : Nat)
  | MDrag (pt move : Pt) (mod_keys : Nat)
  | MButtonUp (pt : Pt) (mod_keys : Nat)
  | MClick (pt : Pt) (mod_keys : Nat)
  | MDoubleClick (pt : Pt) (mod_keys : Nat)
  | RButtonDown (pt : Pt) (mod_keys : Nat)
  | RDrag (pt move : Pt) (mod_keys : Nat)
  | RButtonUp (pt : Pt) (mod_keys : Nat)
  | RClick (pt : Pt) (mod_keys : Nat)
  | RDoubleClick (pt : Pt) (mod_keys : Nat)
  | MouseEnter (pt : Pt) (mod_keys : Nat)
  | MouseHere (pt : Pt) (mod_keys : Nat)
  | MouseLeave
  | DragDropEnter (pt : Pt) (mod_keys : Nat)
  | DragDropHere (pt : Pt) (mod_keys : Nat)
  | CheckDrops (pt : Pt) (mod_keys : Nat)
  | DragDropLeave
  | DragDroppedOn (pt : Pt) (mod_keys : Nat)
  | MouseWheel (pt : Pt) (move : Int) (mod_keys : Nat)
  | KeyPress (key : Nat) (key_code_point : Nat) (mod_keys : Nat)
  | KeyRelease (key : Nat) (key_code_point : Nat) (mod_keys : Nat)
  | TextInput (text : String)
  | GainingFocus
  | LosingFocus
  | TimerFiring (ticks : Nat)
deriving DecidableEq

/-- The control-transfer signal `ForwardToParentException`, thrown by
`Wnd::ForwardEventToParent()`. -/
inductive ForwardSignal
  | toParent
deriving DecidableEq

namespace WndState

/-- Default handler of every pointer, key and drag-drop event on a base
`Wnd`: bubble (throw the forward signal) when the node is not interactive,
otherwise do nothing. -/
def bubbleUnlessInteractive (w : WndState) : Except ForwardSignal WndState :=
  if !Interactive w then .error .toParent else .ok w

/-- The typed-handler dispatch switch inside `Wnd::HandleEvent`: each case
invokes the matching virtual handler of the base `Wnd`.  `hasParent` is
whether `Parent()` resolves (used by `AcceptDrops`).  A double click
degrades to the corresponding click; a left drag on a dragable node offset
moves the node; `DragDropHere` and `CheckDrops` first bubble when not
interactive, and their subsequent `DropsAcceptable` call writes only into
the event's out-map, not into the node.  Focus and timer events are no-ops
in the base class. -/
def dispatchEvent (w : WndState) (hasParent : Bool) :
    WndEvent → Except ForwardSignal WndState
  | .LButtonDown _ _ => bubbleUnlessInteractive w
  | .LDrag _ move _ =>
      if Dragable w then .ok (OffsetMove w move)
      else if !Interactive w then .error .toParent
      else .ok w
  | .LButtonUp _ _ => bubbleUnlessInteractive w
  | .LClick _ _ => bubbleUnlessInteractive w
  | .LDoubleClick _ _ => bubbleUnlessInteractive w
  | .MButtonDown _ _ => bubbleUnlessInteractive w
  | .MDrag _ _ _ => bubbleUnlessInteractive w
  | .MButtonUp _ _ => bubbleUnlessInteractive w
  | .MClick _ _ => bubbleUnlessInteractive w
  | .MDoubleClick _ _ => bubbleUnlessInteractive w
  | .RButtonDown _ _ => bubbleUnlessInteractive w
  | .RDrag _ _ _ => bubbleUnlessInteractive w
  | .RButtonUp _ _ => bubbleUnlessInteractive w
  | .RClick _ _ => bubbleUnlessInteractive w
  | .RDoubleClick _ _ => bubbleUnlessInteractive w
  | .MouseEnter _ _ => bubbleUnlessInteractive w
  | .MouseHere _ _ => bubbleUnlessInteractive w
  | .MouseLeave => bubbleUnlessInteractive w
  | .DragDropEnter _ _ => bubbleUnlessInteractive w
  | .DragDropHere _ _ => bubbleUnlessInteractive w
  | .CheckDrops _ _ => bubbleUnlessInteractive w
  | .DragDropLeave => bubbleUnlessInteractive w
  | .DragDroppedOn _ _ =>
      if !Interactive w ∧ hasParent then .error .toParent else .ok w
  | .MouseWheel _ _ _ => bubbleUnlessInteractive w
  | .KeyPress _ _ _ => bubbleUnlessInteractive w
  | .KeyRelease _ _ _ => bubbleUnlessInteractive w
  | .TextInput _ => bubbleUnlessInteractive w
  | .GainingFocus => .ok w
  | .LosingFocus => .ok w
  | .TimerFiring _ => .ok w

end WndState

/-- An event filter installed on a node: invoked with the target node and
the event, consuming the event when it returns true (the base
`Wnd::EventFilter` returns false). -/
def EventFilterFn : Type := WndState → WndEvent → Bool

/-- One node of the parent chain together with its own installed filters. -/
def ChainNode : Type := WndState × List EventFilterFn

/-- `Wnd::HandleEvent(event)` on a node whose still-live ancestors form
`ancestors` (nearest parent first): run the filter chain and stop when any
filter consumes the event; otherwise run the dispatch switch, and catch the
forward signal by re-invoking `HandleEvent` on the parent when one exists.
The signal never propagates out: the function returns the updated node and
updated ancestor chain. -/
def HandleEvent (e : WndEvent) :
    WndState → List EventFilterFn → List ChainNode → WndState × List ChainNode
  | w, filters, [] =>
    if filters.any (fun f => f w e) then (w, [])
    else
      match WndState.dispatchEvent w false e with
      | .ok w' => (w', [])
      | .error .toParent => (w, [])
  | w, filters, (p, pfilters) :: rest =>
    if filters.any (fun f => f w e) then (w, (p, pfilters) :: rest)
    else
      match WndState.dispatchEvent w true e with
      | .ok w' => (w', (p, pfilters) :: rest)
      | .error .toParent =>
          let r := HandleEvent e p pfilters rest
          (w, (r.1, pfilters) :: r.2)

/-! ## Tree mutation: AttachChild / DetachChild

Nodes are identified by their shared-pointer identity, modelled as a `Nat`
id; all handles in the system are live (the `bad_weak_ptr` soft-failure
branch of `AttachChild` concerns calls during construction or destruction,
which a state of live nodes cannot express).  Each node's `m_parent` and
`m_containing_layout` weak links, its strong `m_children` list, its
`m_layout` link and whether it is a `Layout` subclass are kept per id. -/

structure WndSys where
  parent : Nat → Option Nat
  children : Nat → List Nat
  containingLayout : Nat → Option Nat
  layout : Nat → Option Nat
  isLayout : Nat → Bool

/-- Pointwise update of a function at one id. -/
def updFn {α : Type} (f : Nat → α) (n : Nat) (v : α) : Nat → α :=
  fun m => if m = n then v else f m

/-- `Wnd::DetachChildCore(wnd)` called on parent `p` with child `c`: reset
the child's parent and containing-layout weak links, and when the child is
the parent's installed layout, reset that association too. -/
def WndSys.DetachChildCore (s : WndSys) (p c : Nat) : WndSys :=
  { s with
    parent := updFn s.parent c none
    containingLayout := updFn s.containingLayout c none
    layout := if s.layout p = some c then updFn s.layout p none else s.layout }

/-- `Wnd::DetachChild(wnd)` on parent `p`: when `c` is found in the strong
child list, run the core detach and erase the first occurrence from the
list; otherwise do nothing. -/
def WndSys.DetachChild (s : WndSys) (p c : Nat) : WndSys :=
  if c ∈ s.children p then
    let s' := s.DetachChildCore p c
    { s' with children := updFn s'.children p ((s'.children p).erase c) }
  else s

/-- `Wnd::AttachChild(wnd)` on parent `p` with a non-null child `c` and live
handles: detach `c` from its previous parent when it has one, (the external
drag registry removal is outside the tree state), set `c`'s parent link to
`p`, mark `c`'s containing layout when `p` is itself a `Layout`, and append
`c` to `p`'s strong child list. -/
def WndSys.AttachChild (s : WndSys) (p c : Nat) : WndSys :=
  let s1 :=
    match s.parent c with
    | some q => s.DetachChild q c
    | none => s
  let s2 := { s1 with parent := updFn s1.parent c (some p) }
  let s3 :=
    if s.isLayout p then
      { s2 with containingLayout := updFn s2.containingLayout c (some p) }
    else s2
  { s3 with children := updFn s3.children p (s3.children p ++ [c]) }

/-- Well-formedness of the ownership graph around node `c`: whenever `c`
sits in some node's strong child list, `c`'s weak parent link points back at
that node, and no child list holds `c` twice.  `AttachChild` and
`DetachChild` preserve this. -/
def WndSys.WFAt (s : WndSys) (c : Nat) : Prop :=
  (∀ r, c ∈ s.children r → s.parent c = some r) ∧
  (∀ r, (s.children r).count c ≤ 1)

/-! ## Wnd::GridLayout

The grid-inference layout solver.  A child is eligible when its relative
rectangle lies inside the client rectangle; eligible children are validated
against every later sibling (eligible or not) by corner containment, placed
in a per-pixel grid, their four edges snapped outward, and the distinct
snapped left/top edges become the column/row boundaries. -/

/-- The relative rectangle of one child window
(`RelativeUpperLeft`/`RelativeLowerRight`). -/
structure ChildRect where
  ul : Pt
  lr : Pt
deriving DecidableEq

/-- Eligibility filter shared by all three layout builders: skip a child
whose rectangle sticks out of the client rectangle
(`wnd_ul.x < 0 || wnd_ul.y < 0 || client_sz.x < wnd_lr.x || client_sz.y < wnd_lr.y`). -/
def eligibleChild (client : Pt) (c : ChildRect) : Bool :=
  !(c.ul.x < 0 ∨ c.ul.y < 0 ∨ client.x < c.lr.x ∨ client.y < c.lr.y)

/-- The overlap test `GridLayout` applies to an eligible child `c` against a
later sibling `o`: does `o`'s rectangle contain `c`'s upper-left corner or
`c`'s lower-right corner moved in by one pixel (`wnd_lr - Pt(X1, Y1)`). -/
def cornerClash (o c : ChildRect) : Bool :=
  decide (rectContains o.ul o.lr c.ul) ||
  decide (rectContains o.ul o.lr (Pt.sub c.lr ⟨1, 1⟩))

/-- One window inside the pixel-grid container `GridLayoutWnd`: the child it
stands for (by position in the parent's child list) and its current, possibly
snapped, corners. -/
structure GridEntry where
  wnd : Nat
  ul : Pt
  lr : Pt
deriving DecidableEq

/-- The validation-and-collection loop of `Wnd::GridLayout`: walk the
children in list order, skip ineligible ones, throw `BadLayout` when an
eligible child corner-clashes with any later child, and otherwise insert it
into the pixel grid.  `i` is the position of the current child. -/
def gridValidateAux (client : Pt) : List ChildRect → Nat → Except Unit (List GridEntry)
  | [], _ => .ok []
  | c :: rest, i =>
    if eligibleChild client c then
      if rest.any (fun o => cornerClash o c) then .error ()
      else
        match gridValidateAux client rest (i + 1) with
        | .error e => .error e
        | .ok es => .ok (⟨i, c.ul, c.lr⟩ :: es)
    else gridValidateAux client rest (i + 1)

/-- Outward pixel scan toward smaller coordinates (used for left and top
edges), starting at `x`: stop without snapping when `x + 1` is a known
opposite edge, snap to `x` when `x` is a known same-side edge, else step
down; the scan ends at coordinate zero.  `fuel` bounds the recursion and is
always at least the number of loop iterations. -/
def scanDown (stops adopts : List Int) : Nat → Int → Option Int
  | 0, _ => none
  | fuel + 1, x =>
    if x < 0 then none
    else if (x + 1) ∈ stops then none
    else if x ∈ adopts then some x
    else scanDown stops adopts fuel (x - 1)

/-- Outward pixel scan toward larger coordinates (used for right and bottom
edges), bounded by the client extent `limit`: stop without snapping when
`x - 1` is a known opposite edge, snap to `x` when `x` is a known same-side
edge, else step up while `x < limit`. -/
def scanUp (stops adopts : List Int) (limit : Int) : Nat → Int → Option Int
  | 0, _ => none
  | fuel + 1, x =>
    if limit ≤ x then none
    else if (x - 1) ∈ stops then none
    else if x ∈ adopts then some x
    else scanUp stops adopts limit fuel (x + 1)

/-- Placeholder entry used by the positional accessor `entryAt`. -/
def defaultEntry : GridEntry := ⟨0, ⟨0, 0⟩, ⟨0, 0⟩⟩

/-- Placeholder rectangle used with `List.getD` over child lists. -/
def defaultChild : ChildRect := ⟨⟨0, 0⟩, ⟨0, 0⟩⟩

/-- The pixel-grid entry at position `k` (positions never go out of range in
the alignment passes). -/
def entryAt (g : List GridEntry) (k : Nat) : GridEntry := g[k]?.getD defaultEntry

/-- Current left edges of the pixel grid (`LayoutLeft` key). -/
def leftsOf (g : List GridEntry) : List Int := g.map (fun e => e.ul.x)

/-- Current right edges of the pixel grid (`LayoutRight` key). -/
def rightsOf (g : List GridEntry) : List Int := g.map (fun e => e.lr.x)

/-- Current top edges of the pixel grid (`LayoutTop` key). -/
def topsOf (g : List GridEntry) : List Int := g.map (fun e => e.ul.y)

/-- Current bottom edges of the pixel grid (`LayoutBottom` key). -/
def bottomsOf (g : List GridEntry) : List Int := g.map (fun e => e.lr.y)

/-- Where the left-alignment scan sends a window whose left edge is `L`,
given the current grid state: the adopted column when the scan merges, `L`
itself when it stops or runs out.  `leftStep` performs exactly this on the
stored entry. -/
def curSnapLeft (g : List GridEntry) (L : Int) : Int :=
  match scanDown (rightsOf g) (leftsOf g) (L.toNat + 1) (L - 1) with
  | some x => x
  | none => L

/-- Left-alignment of one window: scan from `ul.x - 1` leftward, breaking on
a right edge at `x + 1` and adopting a left edge at `x`, replacing the
window's left edge on success. -/
def leftStep (g : List GridEntry) (i : Nat) : List GridEntry :=
  match g[i]? with
  | none => g
  | some e =>
    match scanDown (rightsOf g) (leftsOf g) (e.ul.x.toNat + 1) (e.ul.x - 1) with
    | some x => g.set i { e with ul := ⟨x, e.ul.y⟩ }
    | none => g

/-- Right-alignment of one window: scan from `lr.x + 1` rightward while
inside the client width, breaking on a left edge at `x - 1` and adopting a
right edge at `x`. -/
def rightStep (client : Pt) (g : List GridEntry) (i : Nat) : List GridEntry :=
  match g[i]? with
  | none => g
  | some e =>
    match scanUp (leftsOf g) (rightsOf g) client.x ((client.x - e.lr.x).toNat + 1)
        (e.lr.x + 1) with
    | some x => g.set i { e with lr := ⟨x, e.lr.y⟩ }
    | none => g

/-- Top-alignment of one window: scan from `ul.y - 1` upward on screen,
breaking on a bottom edge at `y + 1` and adopting a top edge at `y`. -/
def topStep (g : List GridEntry) (i : Nat) : List GridEntry :=
  match g[i]? with
  | none => g
  | some e =>
    match scanDown (bottomsOf g) (topsOf g) (e.ul.y.toNat + 1) (e.ul.y - 1) with
    | some y => g.set i { e with ul := ⟨e.ul.x, y⟩ }
    | none => g

/-- Bottom-alignment of one window: scan from `lr.y + 1` downward while
inside the client height, breaking on a top edge at `y - 1` and adopting a
bottom edge at `y`. -/
def bottomStep (client : Pt) (g : List GridEntry) (i : Nat) : List GridEntry :=
  match g[i]? with
  | none => g
  | some e =>
    match scanUp (topsOf g) (bottomsOf g) client.y ((client.y - e.lr.y).toNat + 1)
        (e.lr.y + 1) with
    | some y => g.set i { e with lr := ⟨e.lr.x, y⟩ }
    | none => g

/-- Processing order of an alignment pass in ascending key order: the
`boost::multi_index` ordered view iterates by key, ties in insertion order;
a window that snaps moves strictly toward already-visited keys onto an edge
that already exists, so the traversal visits each window exactly once, in
ascending order of its key at the start of the pass. -/
def ascOrder (keys : List Int) (n : Nat) : List Nat :=
  List.insertionSort (fun i j =>
    keys.getD i 0 < keys.getD j 0 ∨ (keys.getD i 0 = keys.getD j 0 ∧ i ≤ j))
    (List.range n)

/-- Processing order of the right/bottom passes: the `IsRight`/`IsBottom`
comparators invert the coordinate order, so these views iterate in
descending key order, ties in insertion order. -/
def descOrder (keys : List Int) (n : Nat) : List Nat :=
  List.insertionSort (fun i j =>
    keys.getD j 0 < keys.getD i 0 ∨ (keys.getD i 0 = keys.getD j 0 ∧ i ≤ j))
    (List.range n)

/-- The "align left sides of windows" loop. -/
def leftPhase (g : List GridEntry) : List GridEntry :=
  (ascOrder (leftsOf g) g.length).foldl leftStep g

/-- The "align right sides of windows" loop. -/
def rightPhase (client : Pt) (g : List GridEntry) : List GridEntry :=
  (descOrder (rightsOf g) g.length).foldl (rightStep client) g

/-- The "align tops of windows" loop. -/
def topPhase (g : List GridEntry) : List GridEntry :=
  (ascOrder (topsOf g) g.length).foldl topStep g

/-- The "align bottoms of windows" loop. -/
def bottomPhase (client : Pt) (g : List GridEntry) : List GridEntry :=
  (descOrder (bottomsOf g) g.length).foldl (bottomStep client) g

/-- The contents of a `std::set` of coordinates in iteration order:
ascending and duplicate free. -/
def uniqueSorted (xs : List Int) : List Int :=
  (List.insertionSort (fun a b => a ≤ b) xs).dedup

/-- Position of a probe in a sorted duplicate-free coordinate set: the
number of elements smaller than it.  This is `std::distance(begin,
lower_bound(v))` for any `v`, and also `std::distance(begin, find(v))` for a
`v` that is present. -/
def rankLt (xs : List Int) (v : Int) : Nat :=
  xs.countP (fun u => decide (u < v))

/-- One `layout->Add(wnd, top, left, bottom - top, right - left)` call:
cell coordinates and spans of one child in the manufactured layout. -/
structure CellAssignment where
  wnd : Nat
  row : Int
  col : Int
  rowspan : Int
  colspan : Int
deriving DecidableEq

/-- Populate the manufactured layout: each window's starting column/row is
the position of its snapped left/top edge among the distinct snapped
left/top edges, and its spans run to the lower-bound positions of its
snapped right/bottom edges. -/
def gridAssignments (unique_lefts unique_tops : List Int)
    (g : List GridEntry) : List CellAssignment :=
  g.map (fun e =>
    let left : Int := rankLt unique_lefts e.ul.x
    let top : Int := rankLt unique_tops e.ul.y
    let right : Int := rankLt unique_lefts e.lr.x
    let bottom : Int := rankLt unique_tops e.lr.y
    ⟨e.wnd, top, left, bottom - top, right - left⟩)

/-- `Wnd::GridLayout()` for a parent with child rectangles `children` (in
child-list order) and client size `client`: validate and collect eligible
children, run the four alignment passes, and build the cell assignments from
the distinct snapped edges; with no eligible children no layout is created
(`.ok none`); a corner clash during validation throws `BadLayout`
(`.error`). -/
def GridLayoutOf (children : List ChildRect) (client : Pt) :
    Except Unit (Option (List CellAssignment)) :=
  match gridValidateAux client children 0 with
  | .error _ => .error ()
  | .ok ents =>
    let g := bottomPhase client (topPhase (rightPhase client (leftPhase ents)))
    let unique_lefts := uniqueSorted (leftsOf g)
    let unique_tops := uniqueSorted (topsOf g)
    if unique_lefts.isEmpty ∨ unique_tops.isEmpty then .ok none
    else .ok (some (gridAssignments unique_lefts unique_tops g))

/-! # Theorems -/

/-! ## Claim C2: FlagSpec::insert -/

/-- Claim C2, counterexample: inserting flag 2 under the name "A" into a
registry that already maps flag 1 to "A" is claimed to fail and leave the
registry unchanged; in fact it succeeds and appends the pair, so the
registry ends with the duplicate name "A" twice. -/
theorem insert_duplicate_name_accepted :
    "A" ∈ (FlagSpecS.mk [1] ["A"]).strings ∧
    FlagSpecS.insert ⟨[1], ["A"]⟩ 2 "A" = .ok ⟨[1, 2], ["A", "A"]⟩ :=
  ⟨by decide, rfl⟩

/-- Claim C2 (amended): `insert(flag, name)` fails exactly when the flag
value is already registered or the registry already holds 16 (the bit width
of the underlying integer type) flags — a duplicate name alone does not make
it fail — reporting capacity first; on failure the registry is unchanged (no
new state is produced), and otherwise the pair is appended. -/
theorem insert_fails_iff (s : FlagSpecS) (f : Nat) (n : String) :
    ((∃ e, s.insert f n = .error e) ↔ 16 ≤ s.count ∨ f ∈ s.flags) ∧
    (16 ≤ s.count → s.insert f n = .error .capacityExceeded) ∧
    (s.count < 16 → f ∈ s.flags → s.insert f n = .error .duplicateFlag) ∧
    (s.count < 16 → f ∉ s.flags →
      s.insert f n = .ok ⟨s.flags ++ [f], s.strings ++ [n]⟩) := by
  unfold FlagSpecS.insert
  by_cases hc : 16 ≤ s.count
  · simp [hc]
  · by_cases hf : f ∈ s.flags <;> simp [hc, hf]

/-- Witness for `insert_fails_iff` at a concrete registry: an insert into a
one-entry registry with a fresh flag succeeds and appends. -/
theorem insert_fails_iff_witness :
    FlagSpecS.insert ⟨[1], ["A"]⟩ 2 "B" = .ok ⟨[1, 2], ["A", "B"]⟩ :=
  (insert_fails_iff ⟨[1], ["A"]⟩ 2 "B").2.2.2 (by decide) (by decide)

/-! ## Claim C9: modal and on-top exclusivity -/

/-- Helper: the registry complement of ONTOP over the WndFlag spec is the OR
of the other seven registered flags. -/
theorem wndFlag_complement_ontop : flagsComplement wndFlagSpec ONTOP = 111 := by
  decide

/-- Helper: whatever the constructor argument, `ValidateFlags` leaves the
MODAL bit clear or leaves the ONTOP bit clear. -/
theorem validateFlags_not_both (flags : Nat) :
    WndState.ValidateFlags flags &&& MODAL = 0 ∨
    WndState.ValidateFlags flags &&& ONTOP = 0 := by
  unfold WndState.ValidateFlags
  by_cases hmo : flags &&& MODAL ≠ 0 ∧ flags &&& ONTOP ≠ 0
  · right
    rw [if_pos hmo, wndFlag_complement_ontop, Nat.land_assoc]
    have h0 : (111 &&& ONTOP : Nat) = 0 := by decide
    rw [h0]
    simp
  · rcases Decidable.not_and_iff_or_not.mp hmo with h | h
    · left
      rw [if_neg hmo]
      exact not_not.mp h
    · right
      rw [if_neg hmo]
      exact not_not.mp h

/-- Claim C9: a node constructed with any flag combination never has the
modal and on-top capabilities both effective: the constructor's
`ValidateFlags` clears ONTOP whenever MODAL is present, so `Modal()` and
`OnTop()` are never both true, whatever the parent situation. -/
theorem modal_ontop_exclusive (x y w h : Int) (flags : Nat) (hasParent : Bool) :
    (WndState.Modal (WndState.mkWnd x y w h flags) hasParent &&
     WndState.OnTop (WndState.mkWnd x y w h flags) hasParent) = false := by
  cases hasParent with
  | true => simp [WndState.Modal, WndState.OnTop]
  | false =>
    simp only [WndState.Modal, WndState.OnTop, WndState.mkWnd]
    rcases validateFlags_not_both flags with h | h <;> simp [h]

/-! ## Claim C10: Wnd::Run -/

/-- Claim C10: `Run()` returns false and does nothing — no modal-stack
registration, no `ModalInit` call, no state change — whenever the node has a
parent or lacks the MODAL flag; and it returns true only for a parentless
node with the MODAL flag. -/
theorem run_refuses_nonmodal (w : WndState) (hasParent : Bool) :
    (hasParent = true ∨ w.flags &&& MODAL = 0 →
      WndState.Run w hasParent = (false, w, [])) ∧
    ((WndState.Run w hasParent).1 = true →
      hasParent = false ∧ w.flags &&& MODAL ≠ 0) := by
  unfold WndState.Run
  by_cases hgate : (!hasParent : Bool) ∧ w.flags &&& MODAL ≠ 0
  · obtain ⟨hp, hm⟩ := hgate
    have hp' : hasParent = false := by
      cases hasParent <;> simp_all
    simp [hp', hm]
  · rw [if_neg hgate]
    refine ⟨fun _ => rfl, fun hkontra => absurd hkontra (by simp)⟩

/-- Witness for `run_refuses_nonmodal`: a node with a parent (even one
carrying the MODAL flag) is refused by `Run`. -/
theorem run_refuses_nonmodal_witness :
    WndState.Run (WndState.mkWnd 0 0 5 5 MODAL) true =
      (false, WndState.mkWnd 0 0 5 5 MODAL, []) :=
  (run_refuses_nonmodal (WndState.mkWnd 0 0 5 5 MODAL) true).1 (Or.inl rfl)

/-! ## Claim C5: resize clamping -/

/-- Claim C5, counterexample: a node whose min size (10) exceeds its max
size (5) — reachable, since `SetMinSize`/`SetMaxSize` never reconcile the
two — is resized from 10 to a requested extent of 7, which both falls below
the min size and exceeds the max size; the min branch wins and the result
keeps extent 10, which is not ≤ the max size, against the claim's "requested
size exceeds the max size implies resulting size ≤ max size". -/
theorem sizeMove_above_max_counterexample :
    (Pt.sub ⟨7, 7⟩ ⟨0, 0⟩ ≠
      WndState.Size ⟨0, ⟨0, 0⟩, ⟨10, 10⟩, ⟨10, 10⟩, ⟨5, 5⟩, none, false⟩) ∧
    ((⟨5, 5⟩ : Pt).x < (⟨7, 7⟩ : Pt).x - (⟨0, 0⟩ : Pt).x) ∧
    ¬(WndState.Size
        (WndState.SizeMove ⟨0, ⟨0, 0⟩, ⟨10, 10⟩, ⟨10, 10⟩, ⟨5, 5⟩, none, false⟩
          ⟨0, 0⟩ ⟨7, 7⟩)).x ≤
      (⟨5, 5⟩ : Pt).x := by
  decide

/-- Claim C5 (amended): for a `SizeMove` whose requested size differs from
the current size, on each axis independently: a requested extent below the
effective min size (the node's own min raised to the contained layout's min
plus chrome delta) yields a resulting extent of at least that min, and a
requested extent that exceeds the max size without falling below the
effective min yields a resulting extent of at most the max (when the min
exceeds the max and the request is below the min, the min wins).
`Resize` is `SizeMove` at the current upper-left corner. -/
theorem clampRect_width (w : WndState) (ul lr : Pt) :
    (WndState.ClampRectWithMinAndMaxSize w ul lr).2.x -
      (WndState.ClampRectWithMinAndMaxSize w ul lr).1.x =
    (if lr.x - ul.x < (WndState.effectiveMinSize w).x then (WndState.effectiveMinSize w).x
     else if w.max_size.x < lr.x - ul.x then w.max_size.x
     else lr.x - ul.x) := by
  unfold WndState.ClampRectWithMinAndMaxSize
  dsimp only
  split_ifs <;> dsimp only <;> omega

theorem clampRect_height (w : WndState) (ul lr : Pt) :
    (WndState.ClampRectWithMinAndMaxSize w ul lr).2.y -
      (WndState.ClampRectWithMinAndMaxSize w ul lr).1.y =
    (if lr.y - ul.y < (WndState.effectiveMinSize w).y then (WndState.effectiveMinSize w).y
     else if w.max_size.y < lr.y - ul.y then w.max_size.y
     else lr.y - ul.y) := by
  unfold WndState.ClampRectWithMinAndMaxSize
  dsimp only
  split_ifs <;> dsimp only <;> omega

/-- Helper: a `SizeMove` with a genuinely changed size stores the clamped
rectangle. -/
theorem sizeMove_resized (w : WndState) (ul lr : Pt)
    (h : WndState.Size w ≠ Pt.sub lr ul) :
    WndState.SizeMove w ul lr =
      { w with upperleft := (WndState.ClampRectWithMinAndMaxSize w ul lr).1,
               lowerright := (WndState.ClampRectWithMinAndMaxSize w ul lr).2 } := by
  unfold WndState.SizeMove
  dsimp only
  rw [if_pos h]

theorem sizeMove_clamps (w : WndState) (ul lr : Pt)
    (hresized : Pt.sub lr ul ≠ WndState.Size w) :
    (lr.x - ul.x < (WndState.effectiveMinSize w).x →
      (WndState.effectiveMinSize w).x ≤ (WndState.Size (WndState.SizeMove w ul lr)).x) ∧
    ((WndState.effectiveMinSize w).x ≤ lr.x - ul.x → w.max_size.x < lr.x - ul.x →
      (WndState.Size (WndState.SizeMove w ul lr)).x ≤ w.max_size.x) ∧
    (lr.y - ul.y < (WndState.effectiveMinSize w).y →
      (WndState.effectiveMinSize w).y ≤ (WndState.Size (WndState.SizeMove w ul lr)).y) ∧
    ((WndState.effectiveMinSize w).y ≤ lr.y - ul.y → w.max_size.y < lr.y - ul.y →
      (WndState.Size (WndState.SizeMove w ul lr)).y ≤ w.max_size.y) := by
  rw [sizeMove_resized w ul lr (Ne.symm hresized)]
  simp only [WndState.Size, Pt.sub]
  rw [clampRect_width, clampRect_height]
  refine ⟨?_, ?_, ?_, ?_⟩ <;> intros <;> split_ifs <;> omega

/-- Witness for `sizeMove_clamps`: shrinking a node of size 8 with min size
5 down to a requested size of 3 yields size at least 5. -/
theorem sizeMove_clamps_witness :
    (5 : Int) ≤
      (WndState.Size
        (WndState.SizeMove ⟨0, ⟨0, 0⟩, ⟨8, 8⟩, ⟨5, 5⟩, ⟨20, 20⟩, none, false⟩
          ⟨0, 0⟩ ⟨3, 3⟩)).x :=
  (sizeMove_clamps ⟨0, ⟨0, 0⟩, ⟨8, 8⟩, ⟨5, 5⟩, ⟨20, 20⟩, none, false⟩ ⟨0, 0⟩ ⟨3, 3⟩
    (by decide)).1 (by decide)

/-! ## Claim C4: HandleEvent and the forward signal -/

/-- Claim C4, counterexample: a non-interactive node that carries the
DRAGABLE flag, with no parent and no filters, changes state when a left-drag
event is dispatched to it: `LDrag`'s default performs an `OffsetMove`
instead of bubbling, so "no state change" fails (it does terminate with no
error, but the node has moved by the drag offset). -/
theorem handleEvent_dragable_moves :
    WndState.Interactive (WndState.mkWnd 0 0 5 5 DRAGABLE) = false ∧
    (HandleEvent (WndEvent.LDrag ⟨3, 3⟩ ⟨1, 1⟩ 0)
        (WndState.mkWnd 0 0 5 5 DRAGABLE) [] []).1 ≠
      WndState.mkWnd 0 0 5 5 DRAGABLE := by
  decide

/-- Claim C4 (amended): the forward-to-parent signal never escapes
`HandleEvent` — it is caught and either re-dispatched to the parent or
dropped — and dispatching any event to a non-interactive, non-dragable node
that has no parent and no filters terminates normally with no error and no
state change (a non-interactive dragable node instead moves itself on drag
events). -/
theorem handleEvent_bubble_to_nowhere (w : WndState) (e : WndEvent)
    (hnotint : WndState.Interactive w = false)
    (hnotdrag : WndState.Dragable w = false) :
    HandleEvent e w [] [] = (w, []) := by
  unfold HandleEvent
  simp only [List.any_nil, Bool.false_eq_true, if_false, List.isEmpty_nil]
  cases e <;>
    simp [WndState.dispatchEvent, WndState.bubbleUnlessInteractive, hnotint, hnotdrag]

/-- Witness for `handleEvent_bubble_to_nowhere`: a key press dispatched to a
plain (no flags) parentless node leaves it unchanged. -/
theorem handleEvent_bubble_to_nowhere_witness :
    HandleEvent (WndEvent.KeyPress 13 13 0) (WndState.mkWnd 0 0 5 5 NO_WND_FLAGS)
        [] [] =
      (WndState.mkWnd 0 0 5 5 NO_WND_FLAGS, []) :=
  handleEvent_bubble_to_nowhere (WndState.mkWnd 0 0 5 5 NO_WND_FLAGS)
    (WndEvent.KeyPress 13 13 0) (by decide) (by decide)

/-! ## Claim C6: AttachChild re-parents -/

theorem updFn_same {α : Type} (f : Nat → α) (n : Nat) (v : α) : updFn f n v n = v := by
  simp [updFn]

theorem updFn_other {α : Type} (f : Nat → α) (n m : Nat) (v : α) (h : m ≠ n) :
    updFn f n v m = f m := by
  simp [updFn, h]

/-- Helper: detaching `c` from its recorded parent removes `c` from every
child list (under the ownership well-formedness around `c`). -/
theorem detachChild_removes (s : WndSys) (q c : Nat) (h : s.WFAt c)
    (hq : s.parent c = some q) :
    ∀ r, c ∉ (s.DetachChild q c).children r := by
  intro r
  obtain ⟨h1, h2⟩ := h
  unfold WndSys.DetachChild
  by_cases hin : c ∈ s.children q
  · simp only [hin, if_true]
    have hcoreCh : (s.DetachChildCore q c).children = s.children := rfl
    by_cases hr : r = q
    · subst hr
      rw [hcoreCh, updFn_same]
      have hcount : (s.children r).count c ≤ 1 := h2 r
      have : ((s.children r).erase c).count c = (s.children r).count c - 1 :=
        List.count_erase_self c (s.children r)
      have hz : ((s.children r).erase c).count c = 0 := by omega
      exact List.count_eq_zero.mp hz
    · rw [hcoreCh, updFn_other _ _ _ _ hr]
      intro hmem
      exact hr (Option.some_injective _ ((h1 r hmem).symm.trans hq))
  · simp only [hin, if_false]
    intro hmem
    have := h1 r hmem
    rw [hq] at this
    have hrq : q = r := Option.some_injective _ this
    exact hin (hrq ▸ hmem)

/-- Helper: after `AttachChild`, the child's parent link points at the new
parent, the child sits (once) in the new parent's list and in nobody
else's, and well-formedness around the child is preserved. -/
theorem attachChild_post (s : WndSys) (p c : Nat) (h : s.WFAt c) :
    (s.AttachChild p c).parent c = some p ∧
    (∀ r, r ≠ p → c ∉ (s.AttachChild p c).children r) ∧
    c ∈ (s.AttachChild p c).children p ∧
    (s.AttachChild p c).WFAt c := by
  obtain ⟨h1, h2⟩ := h
  unfold WndSys.AttachChild
  dsimp only
  set s1 := (match s.parent c with
    | some q => s.DetachChild q c
    | none => s) with hs1
  have hgone : ∀ r, c ∉ s1.children r := by
    intro r
    rw [hs1]
    cases hp : s.parent c with
    | some q =>
        exact detachChild_removes s q c ⟨h1, h2⟩ hp r
    | none =>
        intro hmem
        have := h1 r hmem
        rw [hp] at this
        exact Option.noConfusion this
  constructor
  · by_cases hl : s.isLayout p = true <;> simp [hl, updFn_same]
  refine ⟨?_, ?_, ?_, ?_⟩
  · intro r hr
    by_cases hl : s.isLayout p = true <;>
      simp only [hl, if_true, if_false, Bool.false_eq_true] <;>
      rw [updFn_other _ _ _ _ hr] <;> exact hgone r
  · by_cases hl : s.isLayout p = true <;>
      simp only [hl, if_true, if_false, Bool.false_eq_true] <;>
      rw [updFn_same] <;> exact List.mem_append_right _ (List.mem_singleton.mpr rfl)
  · intro r hmem
    by_cases hl : s.isLayout p = true <;>
      simp only [hl, if_true, if_false, Bool.false_eq_true] at hmem ⊢ <;>
      [skip; skip] <;>
      by_cases hr : r = p
    · simp [hr, updFn_same]
    · rw [updFn_other _ _ _ _ hr] at hmem
      exact absurd hmem (hgone r)
    · simp [hr, updFn_same]
    · rw [updFn_other _ _ _ _ hr] at hmem
      exact absurd hmem (hgone r)
  · intro r
    by_cases hl : s.isLayout p = true <;>
      simp only [hl, if_true, if_false, Bool.false_eq_true] <;>
      by_cases hr : r = p
    · subst hr
      rw [updFn_same, List.count_append]
      have := List.count_eq_zero.mpr (hgone r)
      simp [this]
    · rw [updFn_other _ _ _ _ hr]
      simp [List.count_eq_zero.mpr (hgone r)]
    · subst hr
      rw [updFn_same, List.count_append]
      have := List.count_eq_zero.mpr (hgone r)
      simp [this]
    · rw [updFn_other _ _ _ _ hr]
      simp [List.count_eq_zero.mpr (hgone r)]

/-- Claim C6: for live handles and an ownership-well-formed child `c`, after
`P.AttachChild(C)` the child's parent is `P` and `C` sits in no other
child list; attaching to `P` and then to `Q` leaves `C` in `Q`'s list only,
with parent `Q`. -/
theorem attachChild_reparents (s : WndSys) (p q c : Nat) (h : s.WFAt c) :
    ((s.AttachChild p c).parent c = some p ∧
     (∀ r, r ≠ p → c ∉ (s.AttachChild p c).children r) ∧
     c ∈ (s.AttachChild p c).children p) ∧
    (((s.AttachChild p c).AttachChild q c).parent c = some q ∧
     (∀ r, r ≠ q → c ∉ ((s.AttachChild p c).AttachChild q c).children r) ∧
     c ∈ ((s.AttachChild p c).AttachChild q c).children q) := by
  obtain ⟨hp1, hp2, hp3, hwf1⟩ := attachChild_post s p c h
  obtain ⟨hq1, hq2, hq3, _⟩ := attachChild_post (s.AttachChild p c) q c hwf1
  exact ⟨⟨hp1, hp2, hp3⟩, ⟨hq1, hq2, hq3⟩⟩

/-- Witness for `attachChild_reparents`: in an empty forest, attaching node
3 to node 1 and then to node 2 leaves node 3 parented to 2 and present in
2's child list. -/
theorem attachChild_reparents_witness :
    (((WndSys.mk (fun _ => none) (fun _ => []) (fun _ => none) (fun _ => none)
          (fun _ => false)).AttachChild 1 3).AttachChild 2 3).parent 3 = some 2 ∧
    3 ∈ (((WndSys.mk (fun _ => none) (fun _ => []) (fun _ => none) (fun _ => none)
          (fun _ => false)).AttachChild 1 3).AttachChild 2 3).children 2 :=
  ⟨(attachChild_reparents _ 1 2 3
      ⟨fun r hr => absurd hr (List.not_mem_nil 3), fun _ => by simp⟩).2.1,
   (attachChild_reparents _ 1 2 3
      ⟨fun r hr => absurd hr (List.not_mem_nil 3), fun _ => by simp⟩).2.2.2⟩

/-! ## Claim C3: the registry complement -/

theorem oneBitsGo_acc (k : Nat) : ∀ (n acc : Nat),
    OneBitsGo k n acc = OneBitsGo k n 0 + acc := by
  induction k with
  | zero => intro n acc; simp [OneBitsGo]
  | succ k ih =>
    intro n acc
    rw [OneBitsGo, OneBitsGo, ih (n >>> 1), ih (n >>> 1) (if n &&& 1 = 1 then 0 + 1 else 0)]
    by_cases hc : n &&& 1 = 1
    · rw [if_pos hc, if_pos hc]; omega
    · rw [if_neg hc, if_neg hc]; omega

theorem oneBitsGo_eq_zero (k : Nat) : ∀ n : Nat,
    OneBitsGo k n 0 = 0 → n % 2 ^ k = 0 := by
  induction k with
  | zero => intro n _; exact Nat.mod_one n
  | succ k ih =>
    intro n h
    rw [OneBitsGo, oneBitsGo_acc] at h
    have hbit : (if n &&& 1 = 1 then 0 + 1 else 0) = 0 := by omega
    have hrest : OneBitsGo k (n >>> 1) 0 = 0 := by omega
    have heven : n % 2 = 0 := by
      by_cases hc : n &&& 1 = 1
      · simp [hc] at hbit
      · rw [Nat.and_one_is_mod] at hc; omega
    have hdiv : (n / 2) % 2 ^ k = 0 := by
      have := ih (n >>> 1) hrest
      rwa [Nat.shiftRight_one] at this
    obtain ⟨t, ht⟩ := Nat.dvd_of_mod_eq_zero hdiv
    have hn : n = 2 ^ (k + 1) * t := by
      have h2 : n = 2 * (n / 2) := by omega
      rw [h2, ht, pow_succ]
      ring
    rw [hn]
    exact Nat.mul_mod_right _ _

theorem oneBitsGo_le_one (k : Nat) : ∀ n : Nat,
    OneBitsGo k n 0 ≤ 1 → n % 2 ^ k = 0 ∨ ∃ i, n % 2 ^ k = 2 ^ i := by
  induction k with
  | zero => intro n _; left; exact Nat.mod_one n
  | succ k ih =>
    intro n h
    rw [OneBitsGo, oneBitsGo_acc] at h
    have hsplit : n % 2 ^ (k + 1) = n % 2 + 2 * (n / 2 % 2 ^ k) := by
      have : (2 : Nat) ^ (k + 1) = 2 * 2 ^ k := by ring
      rw [this, Nat.mod_mul]
    by_cases hc : n &&& 1 = 1
    · have hodd : n % 2 = 1 := by rwa [Nat.and_one_is_mod] at hc
      have hrest : OneBitsGo k (n >>> 1) 0 = 0 := by simp [hc] at h; omega
      have hdiv : (n / 2) % 2 ^ k = 0 := by
        have := oneBitsGo_eq_zero k (n >>> 1) hrest
        rwa [Nat.shiftRight_one] at this
      right
      refine ⟨0, ?_⟩
      rw [hsplit, hodd, hdiv]
      norm_num
    · have heven : n % 2 = 0 := by rw [Nat.and_one_is_mod] at hc; omega
      have hrest : OneBitsGo k (n >>> 1) 0 ≤ 1 := by simp [hc] at h; omega
      have := ih (n >>> 1) (by rwa [] at hrest)
      rw [Nat.shiftRight_one] at this
      rcases this with hz | ⟨i, hi⟩
      · left; rw [hsplit, heven, hz]
      · right
        exact ⟨i + 1, by rw [hsplit, heven, hi, pow_succ]; ring⟩

/-- Helper: the single-bit invariant of `FlagValue` (constructor rejects
values with more than one set bit) makes conjunction with any set all or
nothing. -/
theorem single_bit_and (f : Nat) (hb : OneBits f ≤ 1) (hlt : f < 2 ^ 16)
    (s : Nat) : f &&& s = 0 ∨ f &&& s = f := by
  have := oneBitsGo_le_one 16 f hb
  rw [Nat.mod_eq_of_lt hlt] at this
  rcases this with hz | ⟨i, hi⟩
  · left; rw [hz]; exact Nat.zero_and s
  · rw [hi, Nat.two_pow_and]
    cases hbit : s.testBit i
    · left; simp
    · right; simp

theorem complement_fold_eq (s : Nat) : ∀ (l : List Nat),
    (∀ f ∈ l, OneBits f ≤ 1 ∧ f < 2 ^ 16) → ∀ acc : Nat,
    l.foldl (fun acc f => if f &&& s = 0 then acc ||| f else acc) acc =
    l.foldl (fun acc f => if f ≠ 0 ∧ f &&& s = f then acc else acc ||| f) acc := by
  intro l
  induction l with
  | nil => intro _ _; rfl
  | cons f t ih =>
    intro hl acc
    obtain ⟨hb, hlt⟩ := hl f (List.mem_cons_self f t)
    have ht := fun g hg => hl g (List.mem_cons_of_mem f hg)
    simp only [List.foldl_cons]
    rcases single_bit_and f hb hlt s with hz | hf
    · rw [if_pos hz]
      by_cases hf0 : f = 0
      · subst hf0
        rw [if_neg (by simp)]
        exact ih ht _
      · rw [if_neg (by rintro ⟨_, hfs⟩; exact hf0 (by omega))]
        exact ih ht _
    · by_cases hf0 : f = 0
      · subst hf0
        rw [if_pos (by simp), if_neg (by simp)]
        exact ih ht _
      · rw [if_neg (by omega), if_pos ⟨hf0, hf⟩]
        exact ih ht _

theorem complement_zero_fold : ∀ (l : List Nat) (acc : Nat),
    l.foldl (fun acc f => if f &&& 0 = 0 then acc ||| f else acc) acc =
    l.foldl (fun acc f => acc ||| f) acc := by
  intro l
  induction l with
  | nil => intro _; rfl
  | cons f t ih =>
    intro acc
    have hstep : (fun (acc f : Nat) => if f &&& 0 = 0 then acc ||| f else acc) =
        fun (acc f : Nat) => acc ||| f := by
      funext a g
      simp
    rw [hstep]

/-- Helper: every set bit of a member of a list is set in the OR-fold of the
list. -/
theorem testBit_or_fold : ∀ (l : List Nat) (acc : Nat) (i : Nat),
    (l.foldl (fun a b => a ||| b) acc).testBit i =
      (acc.testBit i || l.any (fun f => f.testBit i)) := by
  intro l
  induction l with
  | nil => intro acc i; simp
  | cons f t ih =>
    intro acc i
    simp only [List.foldl_cons, List.any_cons, ih, Nat.testBit_lor]
    rw [Bool.or_assoc]

theorem and_or_fold_self (l : List Nat) (f : Nat) (hf : f ∈ l) :
    f &&& l.foldl (fun a b => a ||| b) 0 = f := by
  apply Nat.eq_of_testBit_eq
  intro i
  rw [Nat.testBit_land]
  cases hbit : f.testBit i
  · simp
  · have : (l.foldl (fun a b => a ||| b) 0).testBit i = true := by
      rw [testBit_or_fold]
      simp only [Nat.zero_testBit, Bool.false_or]
      exact List.any_eq_true.mpr ⟨f, hf, hbit⟩
    simp [this]

theorem complement_full_fold (U : Nat) : ∀ (l : List Nat),
    (∀ f ∈ l, f &&& U = f) →
    l.foldl (fun acc f => if f &&& U = 0 then acc ||| f else acc) 0 = 0 := by
  intro l
  induction l with
  | nil => intro _; rfl
  | cons f t ih =>
    intro hl
    have hf := hl f (List.mem_cons_self f t)
    have ht := fun g hg => hl g (List.mem_cons_of_mem f hg)
    simp only [List.foldl_cons]
    by_cases hz : f &&& U = 0
    · have hf0 : f = 0 := by rw [← hf, hz]
      rw [if_pos hz, hf0]
      simpa using ih ht
    · rw [if_neg hz]
      exact ih ht

/-- Claim C3: over any registry whose flags satisfy the single-bit
`FlagValue` invariant, `operator~` computes exactly the registry universe
minus the operand — every registered flag absent from the operand — and in
particular the complement of the empty set is the full registered universe
and the complement of the full universe is empty. -/
theorem complement_is_universe_minus (spec : FlagSpecS) (s : Nat)
    (hbits : ∀ f ∈ spec.flags, OneBits f ≤ 1 ∧ f < 2 ^ 16) :
    flagsComplement spec s = universeMinusSpec spec s ∧
    flagsComplement spec 0 = flagUniverse spec ∧
    flagsComplement spec (flagUniverse spec) = 0 := by
  refine ⟨complement_fold_eq s spec.flags hbits 0, ?_, ?_⟩
  · exact complement_zero_fold spec.flags 0
  · exact complement_full_fold _ spec.flags
      (fun f hf => and_or_fold_self spec.flags f hf)

/-- Witness for `complement_is_universe_minus` at the spec's three-flag
registry: the complement of the single flag A is the OR of B and C, the
complement of the empty set is the full universe 7, and the complement of
the full universe is empty. -/
theorem complement_is_universe_minus_witness :
    flagsComplement ⟨[1, 2, 4], ["A", "B", "C"]⟩ 1 =
      universeMinusSpec ⟨[1, 2, 4], ["A", "B", "C"]⟩ 1 ∧
    flagsComplement ⟨[1, 2, 4], ["A", "B", "C"]⟩ 0 =
      flagUniverse ⟨[1, 2, 4], ["A", "B", "C"]⟩ ∧
    flagsComplement ⟨[1, 2, 4], ["A", "B", "C"]⟩
        (flagUniverse ⟨[1, 2, 4], ["A", "B", "C"]⟩) = 0 :=
  complement_is_universe_minus ⟨[1, 2, 4], ["A", "B", "C"]⟩ 1 (by decide)

/-! ## Claim C7: ToString / FromString round trips -/

/-- Helper: every reachable registry has pairwise-distinct flag values
(insert rejects duplicates) and parallel arrays of equal length. -/
theorem reachable_flags_nodup (s : FlagSpecS) (h : Reachable s) :
    s.flags.Nodup ∧ s.flags.length = s.strings.length := by
  induction h with
  | empty => exact ⟨List.nodup_nil, rfl⟩
  | step hprev hins ih =>
    rename_i s s' f n
    unfold FlagSpecS.insert at hins
    by_cases h16 : 16 ≤ s.count
    · rw [if_pos h16] at hins
      exact absurd hins (by simp)
    · rw [if_neg h16] at hins
      by_cases hdup : f ∈ s.flags
      · rw [if_pos hdup] at hins
        exact absurd hins (by simp)
      · rw [if_neg hdup] at hins
        obtain ⟨hnd, hlen⟩ := ih
        have hs' : s' = ⟨s.flags ++ [f], s.strings ++ [n]⟩ := by
          injection hins with h'
          exact h'.symm
        subst hs'
        constructor
        · rw [List.nodup_append]
          exact ⟨hnd, List.nodup_singleton f,
            fun a ha hb => hdup ((List.mem_singleton.mp hb) ▸ ha)⟩
        · simp [hlen]

/-- Helper: a flag present in the key list appears in the zipped pair list
when the lists have equal length. -/
theorem mem_zip_left : ∀ (fs : List Nat) (ss : List String),
    fs.length = ss.length → ∀ f ∈ fs, ∃ n, (f, n) ∈ fs.zip ss := by
  intro fs
  induction fs with
  | nil => intro ss _ f hf; exact absurd hf (List.not_mem_nil f)
  | cons f0 ft ih =>
    intro ss hlen f hf
    cases ss with
    | nil => simp at hlen
    | cons n0 st =>
      rcases List.mem_cons.mp hf with hf0 | hft
      · exact ⟨n0, by simp [hf0]⟩
      · obtain ⟨n, hn⟩ := ih st (by simpa using hlen) f hft
        exact ⟨n, List.mem_cons_of_mem _ hn⟩

/-- Helper: a name present in the value list appears in the zipped pair
list when the lists have equal length. -/
theorem mem_zip_swap : ∀ (fs : List Nat) (ss : List String),
    fs.length = ss.length → ∀ n ∈ ss, ∃ f, (f, n) ∈ fs.zip ss := by
  intro fs
  induction fs with
  | nil =>
    intro ss hlen n hn
    cases ss with
    | nil => exact absurd hn (List.not_mem_nil n)
    | cons _ _ => simp at hlen
  | cons f0 ft ih =>
    intro ss hlen n hn
    cases ss with
    | nil => simp at hlen
    | cons n0 st =>
      rcases List.mem_cons.mp hn with hn0 | hnt
      · exact ⟨f0, by simp [hn0]⟩
      · obtain ⟨f, hf⟩ := ih st (by simpa using hlen) n hnt
        exact ⟨f, List.mem_cons_of_mem _ hf⟩

/-- Helper: round trip starting from a registered flag, for registries with
distinct flags and distinct names. -/
theorem toString_round_trip : ∀ (fs : List Nat) (ss : List String),
    fs.length = ss.length → fs.Nodup → ss.Nodup → ∀ f ∈ fs,
    ∃ n, n ∈ ss ∧ FlagSpecS.ToString ⟨fs, ss⟩ f = .ok n ∧
      FlagSpecS.FromString ⟨fs, ss⟩ n = .ok f := by
  intro fs
  induction fs with
  | nil => intro ss _ _ _ f hf; exact absurd hf (List.not_mem_nil f)
  | cons f0 ft ih =>
    intro ss hlen hnf hns f hf
    cases ss with
    | nil => simp at hlen
    | cons n0 st =>
      by_cases hf0 : f0 = f
      · refine ⟨n0, List.mem_cons_self n0 st, ?_, ?_⟩
        · unfold FlagSpecS.ToString
          rw [List.zip_cons_cons, List.find?_cons_of_pos _ (by simp [hf0])]
        · unfold FlagSpecS.FromString
          rw [List.zip_cons_cons, List.find?_cons_of_pos _ (by simp)]
          simp [hf0]
      · have hft : f ∈ ft := (List.mem_cons.mp hf).resolve_left (fun h => hf0 h.symm)
        obtain ⟨n, hnmem, hts, hfs⟩ := ih st (by simpa using hlen)
          (List.Nodup.of_cons hnf) (List.Nodup.of_cons hns) f hft
        refine ⟨n, List.mem_cons_of_mem n0 hnmem, ?_, ?_⟩
        · unfold FlagSpecS.ToString at hts ⊢
          rw [List.zip_cons_cons, List.find?_cons_of_neg _ (by simp [hf0])]
          exact hts
        · have hn0 : n0 ≠ n := by
            intro heq
            exact (List.nodup_cons.mp hns).1 (heq ▸ hnmem)
          unfold FlagSpecS.FromString at hfs ⊢
          rw [List.zip_cons_cons, List.find?_cons_of_neg _ (by simp [hn0])]
          exact hfs

/-- Helper: round trip starting from a registered name, for registries with
distinct flags and distinct names. -/
theorem fromString_round_trip : ∀ (fs : List Nat) (ss : List String),
    fs.length = ss.length → fs.Nodup → ss.Nodup → ∀ n ∈ ss,
    ∃ f, f ∈ fs ∧ FlagSpecS.FromString ⟨fs, ss⟩ n = .ok f ∧
      FlagSpecS.ToString ⟨fs, ss⟩ f = .ok n := by
  intro fs
  induction fs with
  | nil =>
    intro ss hlen _ _ n hn
    cases ss with
    | nil => exact absurd hn (List.not_mem_nil n)
    | cons _ _ => simp at hlen
  | cons f0 ft ih =>
    intro ss hlen hnf hns n hn
    cases ss with
    | nil => simp at hlen
    | cons n0 st =>
      by_cases hn0 : n0 = n
      · refine ⟨f0, List.mem_cons_self f0 ft, ?_, ?_⟩
        · unfold FlagSpecS.FromString
          rw [List.zip_cons_cons, List.find?_cons_of_pos _ (by simp [hn0])]
        · unfold FlagSpecS.ToString
          rw [List.zip_cons_cons, List.find?_cons_of_pos _ (by simp)]
          simp [hn0]
      · have hnt : n ∈ st := (List.mem_cons.mp hn).resolve_left (fun h => hn0 h.symm)
        obtain ⟨f, hfmem, hfs, hts⟩ := ih st (by simpa using hlen)
          (List.Nodup.of_cons hnf) (List.Nodup.of_cons hns) n hnt
        refine ⟨f, List.mem_cons_of_mem f0 hfmem, ?_, ?_⟩
        · unfold FlagSpecS.FromString at hfs ⊢
          rw [List.zip_cons_cons, List.find?_cons_of_neg _ (by simp [hn0])]
          exact hfs
        · have hf0 : f0 ≠ f := by
            intro heq
            exact (List.nodup_cons.mp hnf).1 (heq ▸ hfmem)
          unfold FlagSpecS.ToString at hts ⊢
          rw [List.zip_cons_cons, List.find?_cons_of_neg _ (by simp [hf0])]
          exact hts

/-- Helper: `ToString` fails exactly on unregistered flags (equal-length
arrays). -/
theorem toString_fails_iff : ∀ (fs : List Nat) (ss : List String),
    fs.length = ss.length → ∀ f,
    (FlagSpecS.ToString ⟨fs, ss⟩ f = .error .unknownFlag ↔ f ∉ fs) := by
  intro fs ss hlen f
  unfold FlagSpecS.ToString
  constructor
  · intro herr hmem
    obtain ⟨n, hn⟩ := mem_zip_left fs ss hlen f hmem
    cases hfind : (fs.zip ss).find? (fun p => p.1 == f) with
    | some p => rw [hfind] at herr; exact Except.noConfusion herr
    | none =>
      have := List.find?_eq_none.mp hfind (f, n) hn
      simp at this
  · intro hout
    cases hfind : (fs.zip ss).find? (fun p => p.1 == f) with
    | some p =>
      have hp := List.find?_some hfind
      have hpmem := List.mem_of_find?_eq_some hfind
      have : p.1 = f := by simpa using hp
      exact absurd (this ▸ List.of_mem_zip hpmem |>.1) hout
    | none => rfl

/-- Helper: `FromString` fails exactly on unregistered names (equal-length
arrays). -/
theorem fromString_fails_iff : ∀ (fs : List Nat) (ss : List String),
    fs.length = ss.length → ∀ n,
    (FlagSpecS.FromString ⟨fs, ss⟩ n = .error .unknownString ↔ n ∉ ss) := by
  intro fs ss hlen n
  unfold FlagSpecS.FromString
  constructor
  · intro herr hmem
    obtain ⟨f, hf⟩ := mem_zip_swap fs ss hlen n hmem
    cases hfind : (fs.zip ss).find? (fun p => p.2 == n) with
    | some p => rw [hfind] at herr; exact Except.noConfusion herr
    | none =>
      have := List.find?_eq_none.mp hfind (f, n) hf
      simp at this
  · intro hout
    cases hfind : (fs.zip ss).find? (fun p => p.2 == n) with
    | some p =>
      have hp := List.find?_some hfind
      have hpmem := List.mem_of_find?_eq_some hfind
      have : p.2 = n := by simpa using hp
      exact absurd (this ▸ List.of_mem_zip hpmem |>.2) hout
    | none => rfl

/-- Claim C7, counterexample: the registry holding flag 1 and flag 2 both
under the name "A" is reachable by two successful `insert` calls, yet
`ToString` maps flag 2 to "A" while `FromString` maps "A" back to flag 1,
breaking `fromString(toString(f)) == f` for the registered flag 2. -/
theorem round_trip_broken_by_duplicate_name :
    Reachable ⟨[1, 2], ["A", "A"]⟩ ∧
    FlagSpecS.ToString ⟨[1, 2], ["A", "A"]⟩ 2 = .ok "A" ∧
    FlagSpecS.FromString ⟨[1, 2], ["A", "A"]⟩ "A" = .ok 1 ∧ (1 : Nat) ≠ 2 :=
  ⟨@Reachable.step ⟨[1], ["A"]⟩ ⟨[1, 2], ["A", "A"]⟩ 2 "A"
      (@Reachable.step ⟨[], []⟩ ⟨[1], ["A"]⟩ 1 "A" Reachable.empty rfl) rfl,
    rfl, rfl, by decide⟩

/-- Claim C7 (amended): for every reachable registry whose names are
pairwise distinct (flags are distinct in every reachable registry, but
`insert` does not enforce distinct names, so name distinctness is an extra
requirement): `fromString(toString(f)) == f` for every registered flag,
`toString(fromString(n)) == n` for every registered name, and both lookups
fail (`UnknownFlag`/`UnknownString`) exactly on unregistered arguments. -/
theorem registry_round_trips (s : FlagSpecS) (hreach : Reachable s)
    (hnames : s.strings.Nodup) :
    (∀ f ∈ s.flags, ∃ n, FlagSpecS.ToString s f = .ok n ∧
        FlagSpecS.FromString s n = .ok f) ∧
    (∀ n ∈ s.strings, ∃ f, FlagSpecS.FromString s n = .ok f ∧
        FlagSpecS.ToString s f = .ok n) ∧
    (∀ f, FlagSpecS.ToString s f = .error .unknownFlag ↔ f ∉ s.flags) ∧
    (∀ n, FlagSpecS.FromString s n = .error .unknownString ↔ n ∉ s.strings) := by
  obtain ⟨hnd, hlen⟩ := reachable_flags_nodup s hreach
  refine ⟨?_, ?_, ?_, ?_⟩
  · intro f hf
    obtain ⟨n, _, hts, hfs⟩ := toString_round_trip s.flags s.strings hlen hnd hnames f hf
    exact ⟨n, hts, hfs⟩
  · intro n hn
    obtain ⟨f, _, hfs, hts⟩ := fromString_round_trip s.flags s.strings hlen hnd hnames n hn
    exact ⟨f, hfs, hts⟩
  · exact toString_fails_iff s.flags s.strings hlen
  · exact fromString_fails_iff s.flags s.strings hlen

/-- Witness for `registry_round_trips` at a concrete reachable two-entry
registry with distinct names: flag 2 round-trips through "B". -/
theorem registry_round_trips_witness :
    FlagSpecS.ToString ⟨[1, 2], ["A", "B"]⟩ 2 = .ok "B" ∧
    FlagSpecS.FromString ⟨[1, 2], ["A", "B"]⟩ "B" = .ok 2 := by
  obtain ⟨n, hts, hfs⟩ :=
    (registry_round_trips ⟨[1, 2], ["A", "B"]⟩
      (@Reachable.step ⟨[1], ["A"]⟩ ⟨[1, 2], ["A", "B"]⟩ 2 "B"
        (@Reachable.step ⟨[], []⟩ ⟨[1], ["A"]⟩ 1 "A" Reachable.empty rfl) rfl)
      (by decide)).1 2 (by decide)
  have hn : n = "B" := by
    have : FlagSpecS.ToString ⟨[1, 2], ["A", "B"]⟩ 2 = .ok "B" := rfl
    rw [this] at hts
    injection hts with h
    exact h.symm
  subst hn
  exact ⟨hts, hfs⟩

/-! ## Claim C8: children sharing a left edge share a starting column

The processing order of the left pass visits each window once in ascending
order of its phase-start left edge (ties in insertion order): a merge moves
a window onto a column that already holds a left edge strictly below every
unvisited window, so the ordered view never re-presents an element.  The
proofs below show that two windows entering the pass with equal left edges
leave it with equal left edges: the second window replays the scan of the
first, because rights never change during the pass and the only left edges
that move land on already-occupied columns below both scans. -/

theorem scanDown_some (stops adopts : List Int) :
    ∀ (fuel : Nat) (x r : Int), scanDown stops adopts fuel x = some r →
      r ∈ adopts ∧ r ≤ x := by
  intro fuel
  induction fuel with
  | zero => intro x r h; exact Option.noConfusion h
  | succ fuel ih =>
    intro x r h
    rw [scanDown] at h
    by_cases h1 : x < 0
    · rw [if_pos h1] at h
      exact Option.noConfusion h
    · rw [if_neg h1] at h
      by_cases h2 : (x + 1) ∈ stops
      · rw [if_pos h2] at h
        exact Option.noConfusion h
      · rw [if_neg h2] at h
        by_cases h3 : x ∈ adopts
        · rw [if_pos h3] at h
          injection h with h'
          subst h'
          exact ⟨h3, le_refl _⟩
        · rw [if_neg h3] at h
          obtain ⟨hmem, hle⟩ := ih (x - 1) r h
          exact ⟨hmem, by omega⟩

theorem scanDown_congr (stops a1 a2 : List Int) :
    ∀ (fuel : Nat) (x : Int), (∀ v, v ≤ x → (v ∈ a1 ↔ v ∈ a2)) →
      scanDown stops a1 fuel x = scanDown stops a2 fuel x := by
  intro fuel
  induction fuel with
  | zero => intro x _; rfl
  | succ fuel ih =>
    intro x hv
    rw [scanDown, scanDown]
    by_cases h1 : x < 0
    · rw [if_pos h1, if_pos h1]
    · rw [if_neg h1, if_neg h1]
      by_cases h2 : (x + 1) ∈ stops
      · rw [if_pos h2, if_pos h2]
      · rw [if_neg h2, if_neg h2]
        by_cases h3 : x ∈ a1
        · rw [if_pos h3, if_pos ((hv x (le_refl x)).mp h3)]
        · rw [if_neg h3, if_neg (fun hc => h3 ((hv x (le_refl x)).mpr hc))]
          exact ih (x - 1) (fun v hvle => hv v (by omega))

theorem mem_set_iff (l : List Int) (m : Nat) (x v : Int) (hm : m < l.length) :
    v ∈ l.set m x ↔ (v = x ∨ ∃ j, j ≠ m ∧ l[j]? = some v) := by
  constructor
  · intro h
    obtain ⟨n, hn⟩ := List.mem_iff_getElem?.mp h
    rw [List.getElem?_set] at hn
    by_cases hnm : m = n
    · subst hnm
      rw [if_pos rfl, if_pos hm] at hn
      left
      injection hn with h'
      exact h'.symm
    · rw [if_neg hnm] at hn
      exact Or.inr ⟨n, fun hc => hnm hc.symm, hn⟩
  · intro h
    rcases h with h | ⟨j, hj, hget⟩
    · subst h
      exact List.mem_iff_getElem?.mpr ⟨m, List.getElem?_set_self hm⟩
    · refine List.mem_iff_getElem?.mpr ⟨j, ?_⟩
      rw [List.getElem?_set_ne (fun hc => hj hc.symm)]
      exact hget

theorem entryAt_lt (g : List GridEntry) (k : Nat) (hk : k < g.length) :
    g[k]? = some (entryAt g k) := by
  unfold entryAt
  rw [List.getElem?_eq_getElem hk]
  rfl

theorem entryAt_set (g : List GridEntry) (m : Nat) (e : GridEntry) (k : Nat)
    (hm : m < g.length) :
    entryAt (g.set m e) k = if k = m then e else entryAt g k := by
  unfold entryAt
  rw [List.getElem?_set]
  by_cases h : m = k
  · subst h
    rw [if_pos rfl, if_pos hm, if_pos rfl]
    rfl
  · rw [if_neg h, if_neg (fun hc => h hc.symm)]

theorem leftStep_eq (h : List GridEntry) (m : Nat) (hm : m < h.length) :
    leftStep h m =
      (match scanDown (rightsOf h) (leftsOf h) (((entryAt h m).ul.x).toNat + 1)
          ((entryAt h m).ul.x - 1) with
      | some x => h.set m ⟨(entryAt h m).wnd, ⟨x, (entryAt h m).ul.y⟩, (entryAt h m).lr⟩
      | none => h) := by
  unfold leftStep
  rw [entryAt_lt h m hm]

theorem leftStep_ge (h : List GridEntry) (m : Nat) (hm : h.length ≤ m) :
    leftStep h m = h := by
  unfold leftStep
  rw [List.getElem?_eq_none hm]

theorem set_same_int (l : List Int) (m : Nat) (v : Int) (h : l[m]? = some v) :
    l.set m v = l := by
  apply List.ext_getElem?
  intro n
  rw [List.getElem?_set]
  by_cases hmn : m = n
  · subst hmn
    rw [if_pos rfl, if_pos (by
      rcases List.getElem?_eq_some_iff.mp h with ⟨hlt, _⟩
      exact hlt)]
    exact h.symm
  · rw [if_neg hmn]

theorem leftsOf_at (g : List GridEntry) (m : Nat) (hm : m < g.length) :
    (leftsOf g)[m]? = some ((entryAt g m).ul.x) := by
  unfold leftsOf
  rw [List.getElem?_map, entryAt_lt g m hm]
  rfl

theorem rightsOf_at (g : List GridEntry) (m : Nat) (hm : m < g.length) :
    (rightsOf g)[m]? = some ((entryAt g m).lr.x) := by
  unfold rightsOf
  rw [List.getElem?_map, entryAt_lt g m hm]
  rfl

/-- The single-step heart of the left pass: processing window `m` (whose
left edge is still at its phase-start value `L`) either leaves everything
unchanged or moves `m` onto an already-occupied column below `L`; in both
cases every already-processed window keeps both its position and the value
`curSnapLeft` assigns to its phase-start edge, and window `m` now also
agrees with `curSnapLeft`. -/
theorem leftStep_invariant (g0 h : List GridEntry) (m : Nat) (rest : List Nat)
    (hlen : h.length = g0.length)
    (hm : m < g0.length)
    (hmx : (entryAt h m).ul.x = (entryAt g0 m).ul.x)
    (hprocessed : ∀ k, k < g0.length → k ∉ (m :: rest) →
      (entryAt h k).ul.x = curSnapLeft h ((entryAt g0 k).ul.x))
    (horder : ∀ k, k < g0.length → k ∉ (m :: rest) →
      (entryAt g0 k).ul.x ≤ (entryAt g0 m).ul.x) :
    (leftStep h m).length = g0.length ∧
    (∀ k, k ≠ m → entryAt (leftStep h m) k = entryAt h k) ∧
    ((entryAt (leftStep h m) m).wnd = (entryAt h m).wnd ∧
     (entryAt (leftStep h m) m).lr = (entryAt h m).lr ∧
     (entryAt (leftStep h m) m).ul.y = (entryAt h m).ul.y) ∧
    (∀ k, k < g0.length → k ∉ rest →
      (entryAt (leftStep h m) k).ul.x =
        curSnapLeft (leftStep h m) ((entryAt g0 k).ul.x)) := by
  have hm' : m < h.length := by omega
  set L : Int := (entryAt g0 m).ul.x with hL
  rw [leftStep_eq h m hm']
  cases hscan : scanDown (rightsOf h) (leftsOf h) (((entryAt h m).ul.x).toNat + 1)
      ((entryAt h m).ul.x - 1) with
  | none =>
    dsimp only
    refine ⟨hlen, fun _ _ => rfl, ⟨rfl, rfl, rfl⟩, ?_⟩
    intro k hk hkrest
    by_cases hkm : k = m
    · subst hkm
      rw [hmx]
      unfold curSnapLeft
      rw [← hL, ← hmx, hscan]
    · exact hprocessed k hk (by simp [hkm, hkrest])
  | some x =>
    dsimp only
    obtain ⟨hxmem, hxle⟩ :=
      scanDown_some (rightsOf h) (leftsOf h) _ _ _ hscan
    have hxleL : x ≤ L - 1 := by rw [hmx] at hxle; omega
    set e' : GridEntry :=
      ⟨(entryAt h m).wnd, ⟨x, (entryAt h m).ul.y⟩, (entryAt h m).lr⟩ with he'
    have hset : ∀ k, entryAt (h.set m e') k = if k = m then e' else entryAt h k :=
      fun k => entryAt_set h m e' k hm'
    have hrights : rightsOf (h.set m e') = rightsOf h := by
      have hmapset : rightsOf (h.set m e') = (rightsOf h).set m e'.lr.x := by
        unfold rightsOf
        rw [List.map_set]
      rw [hmapset]
      exact set_same_int _ m _ (by rw [rightsOf_at h m hm'])
    have hlefts : leftsOf (h.set m e') = (leftsOf h).set m x := by
      unfold leftsOf
      rw [List.map_set]
    have hmemleft : ∀ v : Int, v ≤ L - 1 →
        (v ∈ leftsOf (h.set m e') ↔ v ∈ leftsOf h) := by
      intro v hvle
      rw [hlefts]
      have hmlen : m < (leftsOf h).length := by
        unfold leftsOf
        rw [List.length_map]
        exact hm'
      rw [mem_set_iff (leftsOf h) m x v hmlen]
      constructor
      · intro hcase
        rcases hcase with hvx | ⟨j, _, hj⟩
        · exact hvx ▸ hxmem
        · exact List.mem_iff_getElem?.mpr ⟨j, hj⟩
      · intro hvmem
        obtain ⟨j, hj⟩ := List.mem_iff_getElem?.mp hvmem
        by_cases hjm : j = m
        · subst hjm
          rw [leftsOf_at h j hm'] at hj
          injection hj with hj'
          rw [hmx] at hj'
          omega
        · exact Or.inr ⟨j, hjm, hj⟩
    have hstable : ∀ K : Int, K ≤ L →
        curSnapLeft (h.set m e') K = curSnapLeft h K := by
      intro K hKle
      unfold curSnapLeft
      rw [hrights,
        scanDown_congr (rightsOf h) (leftsOf (h.set m e')) (leftsOf h) _ (K - 1)
          (fun v hv => hmemleft v (by omega))]
    refine ⟨by rw [List.length_set]; exact hlen, ?_, ?_, ?_⟩
    · intro k hk
      rw [hset k, if_neg hk]
    · rw [hset m, if_pos rfl]
      exact ⟨rfl, rfl, rfl⟩
    · intro k hk hkrest
      by_cases hkm : k = m
      · subst hkm
        rw [hset k, if_pos rfl, hstable L (le_refl L)]
        unfold curSnapLeft
        rw [← hmx, hscan]
      · have hkproc : k ∉ (m :: rest) := by simp [hkm, hkrest]
        rw [hset k, if_neg hkm, hstable _ (horder k hk hkproc)]
        exact hprocessed k hk hkproc

/-- The left pass as a whole: folding `leftStep` over a duplicate-free
worklist sorted by phase-start left edge (all indices in range, unvisited
windows untouched, visited windows agreeing with `curSnapLeft`) ends with
every window's left edge equal to `curSnapLeft` of its phase-start edge in
the final state — so windows that started equal end equal. -/
theorem leftFold_invariant (g0 : List GridEntry) :
    ∀ (todo : List Nat) (h : List GridEntry),
      h.length = g0.length →
      (∀ k, (entryAt h k).wnd = (entryAt g0 k).wnd ∧
            (entryAt h k).lr = (entryAt g0 k).lr ∧
            (entryAt h k).ul.y = (entryAt g0 k).ul.y) →
      List.Pairwise (fun a b => (entryAt g0 a).ul.x ≤ (entryAt g0 b).ul.x) todo →
      todo.Nodup →
      (∀ m ∈ todo, m < g0.length) →
      (∀ m ∈ todo, (entryAt h m).ul.x = (entryAt g0 m).ul.x) →
      (∀ k, k < g0.length → k ∉ todo →
        (entryAt h k).ul.x = curSnapLeft h ((entryAt g0 k).ul.x)) →
      (∀ k, k < g0.length → k ∉ todo → ∀ m ∈ todo,
        (entryAt g0 k).ul.x ≤ (entryAt g0 m).ul.x) →
      (todo.foldl leftStep h).length = g0.length ∧
      (∀ k, (entryAt (todo.foldl leftStep h) k).wnd = (entryAt g0 k).wnd ∧
            (entryAt (todo.foldl leftStep h) k).lr = (entryAt g0 k).lr ∧
            (entryAt (todo.foldl leftStep h) k).ul.y = (entryAt g0 k).ul.y) ∧
      (∀ k, k < g0.length →
        (entryAt (todo.foldl leftStep h) k).ul.x =
          curSnapLeft (todo.foldl leftStep h) ((entryAt g0 k).ul.x)) := by
  intro todo
  induction todo with
  | nil =>
    intro h hlen hshape _ _ _ _ hproc _
    exact ⟨hlen, hshape, fun k hk => hproc k hk (List.not_mem_nil k)⟩
  | cons m rest ih =>
    intro h hlen hshape hsorted hnodup hlt htodo hproc horder
    have hm : m < g0.length := hlt m (List.mem_cons_self m rest)
    have hmx : (entryAt h m).ul.x = (entryAt g0 m).ul.x :=
      htodo m (List.mem_cons_self m rest)
    have horderm : ∀ k, k < g0.length → k ∉ (m :: rest) →
        (entryAt g0 k).ul.x ≤ (entryAt g0 m).ul.x :=
      fun k hk hknot => horder k hk hknot m (List.mem_cons_self m rest)
    obtain ⟨h1len, h1other, ⟨h1wnd, h1lr, h1uly⟩, h1proc⟩ :=
      leftStep_invariant g0 h m rest hlen hm hmx hproc horderm
    have hmnotrest : m ∉ rest := (List.nodup_cons.mp hnodup).1
    have hpairs := List.pairwise_cons.mp hsorted
    show ((rest.foldl leftStep (leftStep h m)).length = g0.length ∧ _ ∧ _)
    refine ih (leftStep h m) h1len ?_ hpairs.2 (List.nodup_cons.mp hnodup).2
      (fun m' hm' => hlt m' (List.mem_cons_of_mem m hm')) ?_ h1proc ?_
    · intro k
      by_cases hkm : k = m
      · subst hkm
        obtain ⟨hw, hl, hy⟩ := hshape k
        exact ⟨h1wnd.trans hw, h1lr.trans hl, h1uly.trans hy⟩
      · rw [h1other k hkm]
        exact hshape k
    · intro m' hm'
      have hm'm : m' ≠ m := fun hc => hmnotrest (hc ▸ hm')
      rw [h1other m' hm'm]
      exact htodo m' (List.mem_cons_of_mem m hm')
    · intro k hk hknot m' hm'
      by_cases hkm : k = m
      · subst hkm
        exact hpairs.1 m' hm'
      · exact horder k hk (by simp [hkm, hknot]) m' (List.mem_cons_of_mem m hm')

theorem leftsOf_getD (g : List GridEntry) (i : Nat) (hi : i < g.length) :
    (leftsOf g).getD i 0 = (entryAt g i).ul.x := by
  rw [List.getD_eq_getElem?_getD, leftsOf_at g i hi]
  rfl

theorem ascOrder_mem (keys : List Int) (n : Nat) :
    ∀ m, m ∈ ascOrder keys n ↔ m < n := by
  intro m
  unfold ascOrder
  rw [(List.perm_insertionSort _ (List.range n)).mem_iff]
  exact List.mem_range

theorem ascOrder_nodup (keys : List Int) (n : Nat) : (ascOrder keys n).Nodup :=
  (List.perm_insertionSort _ (List.range n)).nodup_iff.mpr (List.nodup_range n)

theorem ascOrder_sorted (keys : List Int) (n : Nat) :
    List.Pairwise (fun i j => keys.getD i 0 ≤ keys.getD j 0) (ascOrder keys n) := by
  haveI htr : IsTrans Nat (fun i j =>
      keys.getD i 0 < keys.getD j 0 ∨ (keys.getD i 0 = keys.getD j 0 ∧ i ≤ j)) :=
    ⟨by intro a b c hab hbc; omega⟩
  haveI hto : IsTotal Nat (fun i j =>
      keys.getD i 0 < keys.getD j 0 ∨ (keys.getD i 0 = keys.getD j 0 ∧ i ≤ j)) :=
    ⟨by intro a b; omega⟩
  have hs := List.sorted_insertionSort (fun i j =>
      keys.getD i 0 < keys.getD j 0 ∨ (keys.getD i 0 = keys.getD j 0 ∧ i ≤ j))
    (List.range n)
  refine hs.imp ?_
  intro a b hab
  omega

/-- The left pass sends windows with equal phase-start left edges to equal
snapped left edges, and touches nothing else about any window. -/
theorem leftPhase_spec (g0 : List GridEntry) :
    (leftPhase g0).length = g0.length ∧
    (∀ k, (entryAt (leftPhase g0) k).wnd = (entryAt g0 k).wnd ∧
          (entryAt (leftPhase g0) k).lr = (entryAt g0 k).lr ∧
          (entryAt (leftPhase g0) k).ul.y = (entryAt g0 k).ul.y) ∧
    (∀ k l, k < g0.length → l < g0.length →
      (entryAt g0 k).ul.x = (entryAt g0 l).ul.x →
      (entryAt (leftPhase g0) k).ul.x = (entryAt (leftPhase g0) l).ul.x) := by
  have hphase : leftPhase g0 = List.foldl leftStep g0 (ascOrder (leftsOf g0) g0.length) :=
    rfl
  rw [hphase]
  have hall : ∀ k, k < g0.length → k ∈ ascOrder (leftsOf g0) g0.length :=
    fun k hk => (ascOrder_mem (leftsOf g0) g0.length k).mpr hk
  have hmem : ∀ m ∈ ascOrder (leftsOf g0) g0.length, m < g0.length :=
    fun m hm => (ascOrder_mem (leftsOf g0) g0.length m).mp hm
  have hsorted : List.Pairwise
      (fun a b => (entryAt g0 a).ul.x ≤ (entryAt g0 b).ul.x)
      (ascOrder (leftsOf g0) g0.length) := by
    refine (ascOrder_sorted (leftsOf g0) g0.length).imp_of_mem ?_
    intro a b ha hb hab
    rwa [leftsOf_getD g0 a (hmem a ha), leftsOf_getD g0 b (hmem b hb)] at hab
  obtain ⟨hflen, hfshape, hfproc⟩ :=
    leftFold_invariant g0 (ascOrder (leftsOf g0) g0.length) g0 rfl
      (fun _ => ⟨rfl, rfl, rfl⟩) hsorted
      (ascOrder_nodup (leftsOf g0) g0.length) hmem
      (fun _ _ => rfl)
      (fun k hk hknot => absurd (hall k hk) hknot)
      (fun k hk hknot => absurd (hall k hk) hknot)
  refine ⟨hflen, hfshape, ?_⟩
  intro k l hk hl heq
  rw [hfproc k hk, hfproc l hl, heq]

/-- A step that only rewrites right/top/bottom edges never changes a
window's identity, its left edge, or the list length. -/
theorem step_preserves_left (S : List GridEntry → Nat → List GridEntry)
    (hS : ∀ g i e, g[i]? = some e →
      S g i = g ∨ ∃ e', (S g i = g.set i e' ∧ e'.ul.x = e.ul.x ∧ e'.wnd = e.wnd))
    (hnone : ∀ g i, g[i]? = none → S g i = g) :
    ∀ (todo : List Nat) (g : List GridEntry),
      (todo.foldl S g).length = g.length ∧
      (∀ k, (entryAt (todo.foldl S g) k).ul.x = (entryAt g k).ul.x ∧
            (entryAt (todo.foldl S g) k).wnd = (entryAt g k).wnd) := by
  intro todo
  induction todo with
  | nil => intro g; exact ⟨rfl, fun _ => ⟨rfl, rfl⟩⟩
  | cons m rest ih =>
    intro g
    have hstep : (S g m).length = g.length ∧
        (∀ k, (entryAt (S g m) k).ul.x = (entryAt g k).ul.x ∧
              (entryAt (S g m) k).wnd = (entryAt g k).wnd) := by
      cases hgm : g[m]? with
      | none => rw [hnone g m hgm]; exact ⟨rfl, fun _ => ⟨rfl, rfl⟩⟩
      | some e =>
        rcases hS g m e hgm with hid | ⟨e', hset, hex, hew⟩
        · rw [hid]; exact ⟨rfl, fun _ => ⟨rfl, rfl⟩⟩
        · have hmlt : m < g.length := by
            rcases List.getElem?_eq_some_iff.mp hgm with ⟨hlt, _⟩
            exact hlt
          have hge : entryAt g m = e := by
            unfold entryAt; rw [hgm]; rfl
          rw [hset]
          refine ⟨List.length_set g m e', fun k => ?_⟩
          rw [entryAt_set g m e' k hmlt]
          by_cases hkm : k = m
          · subst hkm
            rw [if_pos rfl, hge]
            exact ⟨hex, hew⟩
          · rw [if_neg hkm]
            exact ⟨rfl, rfl⟩
    obtain ⟨hl1, hp1⟩ := hstep
    obtain ⟨hl2, hp2⟩ := ih (S g m)
    refine ⟨hl2.trans hl1, fun k => ?_⟩
    obtain ⟨ha, hb⟩ := hp2 k
    obtain ⟨hc, hd⟩ := hp1 k
    exact ⟨ha.trans hc, hb.trans hd⟩

theorem rightStep_cases (client : Pt) (g : List GridEntry) (i : Nat) (e : GridEntry)
    (hg : g[i]? = some e) :
    rightStep client g i = g ∨
    ∃ e', rightStep client g i = g.set i e' ∧ e'.ul.x = e.ul.x ∧ e'.wnd = e.wnd := by
  unfold rightStep
  rw [hg]
  dsimp only
  cases scanUp (leftsOf g) (rightsOf g) client.x ((client.x - e.lr.x).toNat + 1)
      (e.lr.x + 1) with
  | none => exact Or.inl rfl
  | some x => exact Or.inr ⟨{ e with lr := ⟨x, e.lr.y⟩ }, rfl, rfl, rfl⟩

theorem topStep_cases (g : List GridEntry) (i : Nat) (e : GridEntry)
    (hg : g[i]? = some e) :
    topStep g i = g ∨
    ∃ e', topStep g i = g.set i e' ∧ e'.ul.x = e.ul.x ∧ e'.wnd = e.wnd := by
  unfold topStep
  rw [hg]
  dsimp only
  cases scanDown (bottomsOf g) (topsOf g) (e.ul.y.toNat + 1) (e.ul.y - 1) with
  | none => exact Or.inl rfl
  | some y => exact Or.inr ⟨{ e with ul := ⟨e.ul.x, y⟩ }, rfl, rfl, rfl⟩

theorem bottomStep_cases (client : Pt) (g : List GridEntry) (i : Nat) (e : GridEntry)
    (hg : g[i]? = some e) :
    bottomStep client g i = g ∨
    ∃ e', bottomStep client g i = g.set i e' ∧ e'.ul.x = e.ul.x ∧ e'.wnd = e.wnd := by
  unfold bottomStep
  rw [hg]
  dsimp only
  cases scanUp (topsOf g) (bottomsOf g) client.y ((client.y - e.lr.y).toNat + 1)
      (e.lr.y + 1) with
  | none => exact Or.inl rfl
  | some y => exact Or.inr ⟨{ e with lr := ⟨e.lr.x, y⟩ }, rfl, rfl, rfl⟩

theorem rightStep_none (client : Pt) (g : List GridEntry) (i : Nat)
    (hg : g[i]? = none) : rightStep client g i = g := by
  unfold rightStep
  rw [hg]

theorem topStep_none (g : List GridEntry) (i : Nat) (hg : g[i]? = none) :
    topStep g i = g := by
  unfold topStep
  rw [hg]

theorem bottomStep_none (client : Pt) (g : List GridEntry) (i : Nat)
    (hg : g[i]? = none) : bottomStep client g i = g := by
  unfold bottomStep
  rw [hg]

/-- The right, top and bottom passes leave every window's left edge and
identity unchanged. -/
theorem phases_preserve_left (client : Pt) (g : List GridEntry) :
    (bottomPhase client (topPhase (rightPhase client g))).length = g.length ∧
    (∀ k, (entryAt (bottomPhase client (topPhase (rightPhase client g))) k).ul.x =
            (entryAt g k).ul.x ∧
          (entryAt (bottomPhase client (topPhase (rightPhase client g))) k).wnd =
            (entryAt g k).wnd) := by
  have hr := step_preserves_left (rightStep client)
    (fun g i e hg => rightStep_cases client g i e hg)
    (fun g i hg => rightStep_none client g i hg)
    (descOrder (rightsOf g) g.length) g
  have ht := step_preserves_left topStep
    (fun g i e hg => topStep_cases g i e hg)
    (fun g i hg => topStep_none g i hg)
    (ascOrder (topsOf (rightPhase client g)) (rightPhase client g).length)
    (rightPhase client g)
  have hb := step_preserves_left (bottomStep client)
    (fun g i e hg => bottomStep_cases client g i e hg)
    (fun g i hg => bottomStep_none client g i hg)
    (descOrder (bottomsOf (topPhase (rightPhase client g)))
      (topPhase (rightPhase client g)).length)
    (topPhase (rightPhase client g))
  refine ⟨?_, fun k => ?_⟩
  · exact (hb.1.trans ht.1).trans hr.1
  · obtain ⟨hb1, hb2⟩ := hb.2 k
    obtain ⟨ht1, ht2⟩ := ht.2 k
    obtain ⟨hr1, hr2⟩ := hr.2 k
    exact ⟨(hb1.trans ht1).trans hr1, (hb2.trans ht2).trans hr2⟩

/-- Every entry the validation loop collects stands for an eligible child of
the list, at the child's position, with the child's rectangle. -/
theorem gridValidate_entry (client : Pt) : ∀ (cs : List ChildRect) (i : Nat)
    (es : List GridEntry), gridValidateAux client cs i = .ok es →
    ∀ e ∈ es, ∃ k, k < cs.length ∧ e.wnd = i + k ∧
      (cs.getD k defaultChild).ul = e.ul ∧ (cs.getD k defaultChild).lr = e.lr ∧
      eligibleChild client (cs.getD k defaultChild) = true := by
  intro cs
  induction cs with
  | nil =>
    intro i es h e he
    unfold gridValidateAux at h
    injection h with h'
    subst h'
    exact absurd he (List.not_mem_nil e)
  | cons c rest ih =>
    intro i es h e he
    unfold gridValidateAux at h
    by_cases helig : eligibleChild client c = true
    · rw [if_pos helig] at h
      by_cases hclash : rest.any (fun o => cornerClash o c) = true
      · rw [if_pos hclash] at h
        exact absurd h (by simp)
      · rw [if_neg hclash] at h
        cases hrec : gridValidateAux client rest (i + 1) with
        | error err => rw [hrec] at h; exact absurd h (by simp)
        | ok es' =>
          rw [hrec] at h
          injection h with h'
          subst h'
          rcases List.mem_cons.mp he with hhead | htail
          · subst hhead
            exact ⟨0, by simp, by simp, rfl, rfl, helig⟩
          · obtain ⟨k, hk, hw, hul, hlr, he'⟩ := ih (i + 1) es' hrec e htail
            exact ⟨k + 1, by simpa using hk, by omega, hul, hlr, he'⟩
    · rw [if_neg helig] at h
      obtain ⟨k, hk, hw, hul, hlr, he'⟩ := ih (i + 1) es h e he
      exact ⟨k + 1, by simpa using hk, by omega, hul, hlr, he'⟩

/-- Claim C8: when the eligible children of a parent are pairwise
non-overlapping rectangles and `GridLayout` builds a layout, any two
children that share the same left edge are assigned the same starting
column. -/
theorem gridLayout_shared_left_same_column
    (children : List ChildRect) (client : Pt)
    (hsep : ∀ ci cj, ci < children.length → cj < children.length → ci ≠ cj →
      eligibleChild client (children.getD ci defaultChild) = true →
      eligibleChild client (children.getD cj defaultChild) = true →
      ¬∃ pt, rectContains (children.getD ci defaultChild).ul
               (children.getD ci defaultChild).lr pt ∧
             rectContains (children.getD cj defaultChild).ul
               (children.getD cj defaultChild).lr pt)
    (asg : List CellAssignment)
    (hok : GridLayoutOf children client = .ok (some asg))
    (ci cj : Nat)
    (hleft : (children.getD ci defaultChild).ul.x =
      (children.getD cj defaultChild).ul.x)
    (a b : CellAssignment) (ha : a ∈ asg) (hb : b ∈ asg)
    (hwa : a.wnd = ci) (hwb : b.wnd = cj) :
    a.col = b.col := by
  clear hsep
  unfold GridLayoutOf at hok
  cases hval : gridValidateAux client children 0 with
  | error err =>
    rw [hval] at hok
    exact absurd hok (by simp)
  | ok es =>
    rw [hval] at hok
    dsimp only at hok
    by_cases hemp : (uniqueSorted (leftsOf (bottomPhase client (topPhase
        (rightPhase client (leftPhase es)))))).isEmpty = true ∨
        (uniqueSorted (topsOf (bottomPhase client (topPhase
        (rightPhase client (leftPhase es)))))).isEmpty = true
    · rw [if_pos hemp] at hok
      exact absurd hok (by simp)
    · rw [if_neg hemp] at hok
      injection hok with hok'
      injection hok' with hok''
      subst hok''
      obtain ⟨hlen1, hshape1, hsame1⟩ := leftPhase_spec es
      obtain ⟨hlen4, hpres4⟩ := phases_preserve_left client (leftPhase es)
      unfold gridAssignments at ha hb
      obtain ⟨ea, heag4, hfa⟩ := List.mem_map.mp ha
      obtain ⟨eb, hebg4, hfb⟩ := List.mem_map.mp hb
      obtain ⟨ka, hka⟩ := List.mem_iff_getElem?.mp heag4
      obtain ⟨kb, hkb⟩ := List.mem_iff_getElem?.mp hebg4
      have hkalt : ka < (bottomPhase client (topPhase (rightPhase client
          (leftPhase es)))).length := by
        rcases List.getElem?_eq_some_iff.mp hka with ⟨hlt, _⟩
        exact hlt
      have hkblt : kb < (bottomPhase client (topPhase (rightPhase client
          (leftPhase es)))).length := by
        rcases List.getElem?_eq_some_iff.mp hkb with ⟨hlt, _⟩
        exact hlt
      have hea : entryAt (bottomPhase client (topPhase (rightPhase client
          (leftPhase es)))) ka = ea := by
        unfold entryAt
        rw [hka]
        rfl
      have heb : entryAt (bottomPhase client (topPhase (rightPhase client
          (leftPhase es)))) kb = eb := by
        unfold entryAt
        rw [hkb]
        rfl
      have hkaes : ka < es.length := by
        rw [hlen4, hlen1] at hkalt
        exact hkalt
      have hkbes : kb < es.length := by
        rw [hlen4, hlen1] at hkblt
        exact hkblt
      have hacol : a.col =
          ((rankLt (uniqueSorted (leftsOf (bottomPhase client (topPhase
            (rightPhase client (leftPhase es)))))) ea.ul.x : Nat) : Int) := by
        rw [← hfa]
      have hbcol : b.col =
          ((rankLt (uniqueSorted (leftsOf (bottomPhase client (topPhase
            (rightPhase client (leftPhase es)))))) eb.ul.x : Nat) : Int) := by
        rw [← hfb]
      have hawnd : a.wnd = ea.wnd := by rw [← hfa]
      have hbwnd : b.wnd = eb.wnd := by rw [← hfb]
      have hwea : ea.wnd = (entryAt es ka).wnd := by
        rw [← hea, (hpres4 ka).2]
        exact (hshape1 ka).1
      have hweb : eb.wnd = (entryAt es kb).wnd := by
        rw [← heb, (hpres4 kb).2]
        exact (hshape1 kb).1
      have hmemesa : entryAt es ka ∈ es :=
        List.mem_iff_getElem?.mpr ⟨ka, entryAt_lt es ka hkaes⟩
      have hmemesb : entryAt es kb ∈ es :=
        List.mem_iff_getElem?.mpr ⟨kb, entryAt_lt es kb hkbes⟩
      obtain ⟨pka, _, hpkaw, hpkau, _, _⟩ :=
        gridValidate_entry client children 0 es hval _ hmemesa
      obtain ⟨pkb, _, hpkbw, hpkbu, _, _⟩ :=
        gridValidate_entry client children 0 es hval _ hmemesb
      have hpkaci : pka = ci := by omega
      have hpkbcj : pkb = cj := by omega
      have horiga : (entryAt es ka).ul.x =
          (children.getD ci defaultChild).ul.x := by
        rw [← hpkaci, ← hpkau]
      have horigb : (entryAt es kb).ul.x =
          (children.getD cj defaultChild).ul.x := by
        rw [← hpkbcj, ← hpkbu]
      have heqorig : (entryAt es ka).ul.x = (entryAt es kb).ul.x := by
        rw [horiga, horigb, hleft]
      have heq1 := hsame1 ka kb hkaes hkbes heqorig
      have heq4 : ea.ul.x = eb.ul.x := by
        rw [← hea, ← heb, (hpres4 ka).1, (hpres4 kb).1]
        exact heq1
      rw [hacol, hbcol, heq4]

/-- Witness for `gridLayout_shared_left_same_column`: three non-overlapping
rectangles in a 10 by 10 client, two of them sharing left edge 2; the grid
layout places those two in starting column 0. -/
theorem gridLayout_shared_left_same_column_witness :
    (CellAssignment.mk 0 0 0 1 1).col = (CellAssignment.mk 1 1 0 1 1).col :=
  gridLayout_shared_left_same_column
    [⟨⟨2, 0⟩, ⟨5, 3⟩⟩, ⟨⟨2, 4⟩, ⟨6, 8⟩⟩, ⟨⟨7, 0⟩, ⟨9, 2⟩⟩] ⟨10, 10⟩
    (by
      intro ci cj hci hcj hne _ _
      have hci3 : ci < 3 := by simpa using hci
      have hcj3 : cj < 3 := by simpa using hcj
      clear hci hcj
      rintro ⟨pt, hA, hB⟩
      interval_cases ci <;> interval_cases cj <;>
        simp only [rectContains, Pt.le, Pt.lt, List.getD_cons_zero,
          List.getD_cons_succ] at hA hB <;>
        omega)
    [⟨0, 0, 0, 1, 1⟩, ⟨1, 1, 0, 1, 1⟩, ⟨2, 0, 1, 1, 1⟩] rfl
    0 1 (by decide)
    ⟨0, 0, 0, 1, 1⟩ ⟨1, 1, 0, 1, 1⟩ (by decide) (by decide) rfl rfl

/-! ## Claim C1: when GridLayout raises BadLayout -/

/-- Claim C1, counterexample: two eligible children in cross configuration
— horizontal bar 0..10 by 4..6 and vertical bar 4..6 by 0..10 — overlap
(the point (4,4) lies in both rectangles), yet `GridLayout` raises nothing
and builds a layout, because neither checked corner of the earlier child
lies inside the later child's rectangle. -/
theorem gridLayout_cross_overlap_not_detected :
    eligibleChild ⟨10, 10⟩ ⟨⟨0, 4⟩, ⟨10, 6⟩⟩ = true ∧
    eligibleChild ⟨10, 10⟩ ⟨⟨4, 0⟩, ⟨6, 10⟩⟩ = true ∧
    (rectContains ⟨0, 4⟩ ⟨10, 6⟩ ⟨4, 4⟩ ∧ rectContains ⟨4, 0⟩ ⟨6, 10⟩ ⟨4, 4⟩) ∧
    GridLayoutOf [⟨⟨0, 4⟩, ⟨10, 6⟩⟩, ⟨⟨4, 0⟩, ⟨6, 10⟩⟩] ⟨10, 10⟩ =
      .ok (some [⟨0, 0, 0, 1, 1⟩, ⟨1, 0, 0, 1, 1⟩]) :=
  ⟨by decide, by decide, by decide, rfl⟩

/-- Helper: the validation loop throws exactly when some eligible child is
followed, anywhere later in the child list (eligible or not), by a child
whose rectangle contains its upper-left corner or its lower-right corner
less one pixel. -/
theorem gridValidateAux_error_iff (client : Pt) : ∀ (cs : List ChildRect) (i : Nat),
    ((∃ e, gridValidateAux client cs i = .error e) ↔
      ∃ pre c post, cs = pre ++ c :: post ∧
        eligibleChild client c = true ∧
        post.any (fun o => cornerClash o c) = true) := by
  intro cs
  induction cs with
  | nil =>
    intro i
    constructor
    · rintro ⟨e, he⟩
      unfold gridValidateAux at he
      exact Except.noConfusion he
    · rintro ⟨pre, c, post, habs, _, _⟩
      have := congrArg List.length habs
      simp at this
      omega
  | cons c0 rest ih =>
    intro i
    unfold gridValidateAux
    by_cases helig : eligibleChild client c0 = true
    · rw [if_pos helig]
      by_cases hclash : rest.any (fun o => cornerClash o c0) = true
      · rw [if_pos hclash]
        constructor
        · intro _
          exact ⟨[], c0, rest, rfl, helig, hclash⟩
        · intro _
          exact ⟨(), rfl⟩
      · rw [if_neg hclash]
        constructor
        · rintro ⟨e, he⟩
          cases hrec : gridValidateAux client rest (i + 1) with
          | error err =>
            obtain ⟨pre, c, post, heq, hc1, hc2⟩ := (ih (i + 1)).mp ⟨err, hrec⟩
            exact ⟨c0 :: pre, c, post, by rw [heq]; rfl, hc1, hc2⟩
          | ok es =>
            rw [hrec] at he
            exact Except.noConfusion he
        · rintro ⟨pre, c, post, heq, hc1, hc2⟩
          cases pre with
          | nil =>
            injection heq with h1 h2
            subst h1
            subst h2
            exact absurd hc2 hclash
          | cons p0 pre' =>
            injection heq with h1 h2
            obtain ⟨err, herr⟩ := (ih (i + 1)).mpr ⟨pre', c, post, h2, hc1, hc2⟩
            rw [herr]
            exact ⟨err, rfl⟩
    · rw [if_neg helig]
      constructor
      · rintro ⟨e, he⟩
        obtain ⟨pre, c, post, heq, hc1, hc2⟩ := (ih (i + 1)).mp ⟨e, he⟩
        exact ⟨c0 :: pre, c, post, by rw [heq]; rfl, hc1, hc2⟩
      · rintro ⟨pre, c, post, heq, hc1, hc2⟩
        cases pre with
        | nil =>
          injection heq with h1 h2
          subst h1
          exact absurd hc1 helig
        | cons p0 pre' =>
          injection heq with h1 h2
          exact (ih (i + 1)).mpr ⟨pre', c, post, h2, hc1, hc2⟩

/-- Claim C1 (amended): `GridLayout` raises `BadLayout` exactly when some
in-client-rectangle (eligible) child is followed later in the child list by
a child — eligible or not — whose rectangle contains the earlier child's
upper-left corner or its lower-right corner less one pixel.  Overlapping
eligible children whose checked corners both fall outside the other
rectangle (cross overlaps) are not rejected, and an eligible child whose
corner lies inside an out-of-bounds later sibling is rejected. -/
theorem gridLayout_raises_iff (children : List ChildRect) (client : Pt) :
    ((∃ e, GridLayoutOf children client = .error e) ↔
      ∃ pre c post, children = pre ++ c :: post ∧
        eligibleChild client c = true ∧
        post.any (fun o => cornerClash o c) = true) := by
  constructor
  · rintro ⟨e, he⟩
    unfold GridLayoutOf at he
    cases hval : gridValidateAux client children 0 with
    | error err => exact (gridValidateAux_error_iff client children 0).mp ⟨err, hval⟩
    | ok es =>
      rw [hval] at he
      dsimp only at he
      by_cases hemp : (uniqueSorted (leftsOf (bottomPhase client (topPhase
          (rightPhase client (leftPhase es)))))).isEmpty = true ∨
          (uniqueSorted (topsOf (bottomPhase client (topPhase
          (rightPhase client (leftPhase es)))))).isEmpty = true
      · rw [if_pos hemp] at he
        exact Except.noConfusion he
      · rw [if_neg hemp] at he
        exact Except.noConfusion he
  · intro hexists
    obtain ⟨err, herr⟩ :=
      (gridValidateAux_error_iff client children 0).mpr hexists
    refine ⟨err, ?_⟩
    unfold GridLayoutOf
    rw [herr]

end GGSpec
